import Mathlib

/-!
# Verification of the word-ladder graph engine

This file shallowly embeds the word-ladder engine of the repository:

* the offline dictionary builder (`preprocessDictionary` in the build script):
  wildcard pattern buckets, the letter-substitution adjacency graph, and the
  BFS connectivity groups;
* the online resolver (the `word-ladder` API route): `loadDictionary`,
  `findShortestPath`, `areInSameGroup` and the `POST` handler;
* the client-side heuristic ladder generator (`src/utils/wordLadder.ts`):
  `differByOne`, `generateNeighbors`, `generateWordLadder`.

JavaScript strings are modelled as `List Char`; JavaScript `Record`s /
`Map`s are modelled as association lists with first-key lookup; the
`while (queue.length > 0)` BFS loops are modelled with an explicit fuel
argument large enough that it is never exhausted (a sufficiency proof is
part of the development).
-/

set_option maxHeartbeats 1000000

/-- A JavaScript string: a list of characters. -/
abbrev Word := List Char

/-- `String.prototype.toUpperCase()` on the A–Z/a–z subset used here. -/
def upperW (w : Word) : Word := w.map Char.toUpper

/-- `String.prototype.trim()`: strip leading and trailing whitespace. -/
def trimW (w : Word) : Word :=
  ((w.dropWhile Char.isWhitespace).reverse.dropWhile Char.isWhitespace).reverse

/-- The alphabet `'ABCDEFGHIJKLMNOPQRSTUVWXYZ'.split('')` used by the
heuristic neighbour generator and by the dictionary preprocessing filter
`/^[A-Z]+$/`. -/
def LETTERS : List Char := "ABCDEFGHIJKLMNOPQRSTUVWXYZ".toList

/-- First-match association-list lookup, the read semantics of a JS
`Record`/`Map` key access. -/
def alookup {α β : Type} [DecidableEq α] : List (α × β) → α → Option β
  | [], _ => none
  | (k, v) :: rest, a => if k = a then some v else alookup rest a

/-- `graph[w] || []`: the neighbour list of `w`, defaulting to empty. -/
def nbrsOf (g : List (Word × List Word)) (w : Word) : List Word :=
  (alookup g w).getD []

/-! ## `differByOne` (src/utils/wordLadder.ts)

The source iterates positions, counts case-insensitive character
mismatches with an early exit once the count exceeds 1, and finally
tests `diffCount === 1`. -/

/-- The counting loop of `differByOne`, with accumulator `c`. -/
def diffLoop : List Char → List Char → Nat → Bool
  | a :: as, b :: bs, c =>
    if a.toUpper ≠ b.toUpper then
      if c + 1 > 1 then false else diffLoop as bs (c + 1)
    else diffLoop as bs c
  | _, _, c => c == 1

/-- `differByOne(str1, str2)`: true iff the equal-length strings differ in
exactly one position, case-insensitively. -/
def differByOne (s1 s2 : Word) : Bool :=
  if s1.length ≠ s2.length then false else diffLoop s1 s2 0

/-- Number of positions at which two equal-length words differ,
case-insensitively (specification-side count for `differByOne`). -/
def hammingU (a b : Word) : Nat :=
  (a.zip b).countP (fun pr => decide (pr.1.toUpper ≠ pr.2.toUpper))

/-- Number of positions at which two words differ (raw characters);
used to state adjacency correctness of the builder graph. -/
def diffCountRaw (a b : Word) : Nat :=
  (a.zip b).countP (fun pr => decide (pr.1 ≠ pr.2))

/-- "A and B differ in exactly one letter position" for the builder
graph (the builder compares raw, already-uppercased words). -/
def OneAway (a b : Word) : Prop := a.length = b.length ∧ diffCountRaw a b = 1

/-! ## The generic BFS loop

Both `findShortestPath` (API route) and `generateWordLadder`
(wordLadder.ts) run the same queue-of-paths BFS:

```js
while (queue.length > 0) {
  const { word, path } = queue.shift()!;
  if (isTarget(word)) return path;           // word === end, resp. case-insensitive
  [if (path.length >= maxSteps) continue;]   // only in generateWordLadder
  for (const neighbor of nbrs(word)) {
    if (!visited.has(key(neighbor)) && guard(word, neighbor)) {
      visited.add(key(neighbor));
      queue.push({ word: neighbor, path: [...path, neighbor] });
    }
  }
}
return null;
```

The loop is parameterised accordingly; `key` is the normalisation applied
to visited entries (`id`, resp. `toUpperCase`). -/

section GenericBFS

variable (isTarget : Word → Bool) (expandOk : Nat → Bool)
variable (nbrs : Word → List Word) (keyF : Word → Word) (guardB : Word → Word → Bool)

/-- The inner `for (const neighbor of nbrs(word))` push loop: returns the
grown visited set and the list of entries appended to the queue, in order. -/
def pushAll (w : Word) (p : List Word) :
    List Word → List Word → List Word × List (Word × List Word)
  | visited, [] => (visited, [])
  | visited, n :: ns =>
    if keyF n ∉ visited ∧ guardB w n = true then
      let r := pushAll w p (keyF n :: visited) ns
      (r.1, (n, p ++ [n]) :: r.2)
    else pushAll w p visited ns

/-- The BFS `while` loop. `none` = fuel exhausted (never happens for the
fuel values used below), `some none` = queue exhausted with no path,
`some (some p)` = path found. -/
def bfsLoop : Nat → List Word → List (Word × List Word) → Option (Option (List Word))
  | 0, _, _ => none
  | _ + 1, _, [] => some none
  | fuel + 1, visited, (w, p) :: rest =>
    if isTarget w = true then some (some p)
    else if expandOk p.length = true then
      let r := pushAll keyF guardB w p visited (nbrs w)
      bfsLoop fuel r.1 (rest ++ r.2)
    else bfsLoop fuel visited rest

end GenericBFS

/-! ## The online resolver (`findShortestPath` in the API route) -/

/-- `findShortestPath(startWord, endWord, graph)` from the word-ladder API
route: uppercase both words, require both to be keys of the graph, return
`[start]` on the identity case, otherwise BFS over the adjacency record. -/
def findShortestPath (g : List (Word × List Word)) (startWord endWord : Word) :
    Option (List Word) :=
  let start := upperW startWord
  let endW := upperW endWord
  if alookup g start = none ∨ alookup g endW = none then none
  else if start = endW then some [start]
  else
    match bfsLoop (fun w => decide (w = endW)) (fun _ => true)
        (fun w => nbrsOf g w) (fun w => w) (fun _ _ => true)
        ((g.flatMap (fun pr => pr.2)).length + 2) [start] [(start, [start])] with
    | some r => r
    | none => none

/-! ## The heuristic generator (`generateWordLadder` in wordLadder.ts) -/

/-- `generateNeighbors(word)`: all single-position substitutions of `word`
by an uppercase letter that change the word case-insensitively. -/
def generateNeighbors (word : Word) : List Word :=
  (List.range word.length).flatMap (fun i =>
    (LETTERS.map (fun letter => word.take i ++ letter :: word.drop (i + 1))).filter
      (fun neighbor => decide (upperW neighbor ≠ upperW word)))

/-- All words of length `n` over the alphabet `alpha`; used only to size
the fuel of `generateWordLadder`'s BFS (every word the loop can ever mark
visited lies in this list). -/
def allStringsOver (alpha : List Char) : Nat → List Word
  | 0 => [[]]
  | n + 1 => alpha.flatMap (fun c => (allStringsOver alpha n).map (c :: ·))

/-- `generateWordLadder(startWord, endWord, maxSteps = 10)`: dictionary-free
BFS over all single-letter substitutions, never extending a path that has
already reached `maxSteps` words. -/
def generateWordLadder (startWord endWord : Word) (maxSteps : Nat := 10) :
    Option (List Word) :=
  if startWord.length ≠ endWord.length then none
  else
    match bfsLoop (fun w => decide (upperW w = upperW endWord))
        (fun len => decide (len < maxSteps)) generateNeighbors upperW
        (fun w n => differByOne w n)
        ((allStringsOver (LETTERS ++ startWord) startWord.length).length + 2)
        [upperW startWord] [(startWord, [startWord])] with
    | some r => r
    | none => none

/-! ## The offline builder (`preprocessDictionary`)

For one word length: build the wildcard-pattern buckets, derive each
word's neighbour set, then BFS the connectivity groups. -/

/-- `word.slice(0, i) + '_' + word.slice(i + 1)`. -/
def patternOf (w : Word) (i : Nat) : Word := w.take i ++ '_' :: w.drop (i + 1)

/-- Append `w` to the bucket of pattern `p` (creating the bucket if absent),
the effect of `patternMap[pattern].push(word)`. -/
def addToBucket (pm : List (Word × List Word)) (p : Word) (w : Word) :
    List (Word × List Word) :=
  match pm with
  | [] => [(p, [w])]
  | (q, ws) :: rest =>
    if q = p then (q, ws ++ [w]) :: rest else (q, ws) :: addToBucket rest p w

/-- Register all `word.length` patterns of one word. -/
def addWordPatterns (pm : List (Word × List Word)) (w : Word) :
    List (Word × List Word) :=
  (List.range w.length).foldl (fun pm i => addToBucket pm (patternOf w i) w) pm

/-- Step 1 of the builder: the full pattern map of a word list. -/
def patternBuckets (wordList : List Word) : List (Word × List Word) :=
  wordList.foldl addWordPatterns []

/-- JS `Set.add` on a list kept in insertion order. -/
def setInsert (acc : List Word) (n : Word) : List Word :=
  if n ∈ acc then acc else acc ++ [n]

/-- `Array.from(new Set(l))`: first occurrences, in insertion order. -/
def dedupFirst (l : List Word) : List Word := l.foldl setInsert []

/-- Step 2 of the builder: the neighbour set of one word — the union of its
pattern buckets, excluding the word itself. -/
def buildNeighbors (pm : List (Word × List Word)) (word : Word) : List Word :=
  dedupFirst (((List.range word.length).flatMap
    (fun i => (alookup pm (patternOf word i)).getD [])).filter (fun n => decide (n ≠ word)))

/-- The builder's adjacency record `graph` for one word length. -/
def buildGraph (wordList : List Word) : List (Word × List Word) :=
  let pm := patternBuckets wordList
  wordList.map (fun word => (word, buildNeighbors pm word))

/-- The connectivity-group BFS inner push loop: enqueue the not-yet-visited
neighbours, marking them visited. -/
def enqueueNew (visited : List Word) : List Word → List Word × List Word
  | [] => (visited, [])
  | n :: rest =>
    if n ∈ visited then enqueueNew visited rest
    else
      let r := enqueueNew (n :: visited) rest
      (r.1, n :: r.2)

/-- The connectivity-group BFS `while` loop: pop a word into the group,
enqueue its unvisited neighbours. Returns (visited, group). -/
def groupBFS (g : List (Word × List Word)) :
    Nat → List Word → List Word → List Word → List Word × List Word
  | 0, visited, _, grp => (visited, grp)
  | _ + 1, visited, [], grp => (visited, grp)
  | fuel + 1, visited, cur :: rest, grp =>
    let r := enqueueNew visited (nbrsOf g cur)
    groupBFS g fuel r.1 (rest ++ r.2) (grp ++ [cur])

/-- Fuel that the `groupBFS` loop can never exhaust: every enqueued word
comes from a neighbour list of `g`, and each is enqueued at most once. -/
def groupFuel (g : List (Word × List Word)) : Nat :=
  (g.flatMap (fun pr => pr.2)).length + 2

/-- The outer loop of `Finding connectivity groups`: scan the word list;
every unvisited word seeds a BFS that collects one group. -/
def buildGroupsAux (g : List (Word × List Word)) :
    List Word → List Word → Nat → List (Nat × List Word) → List (Nat × List Word)
  | [], _, _, acc => acc
  | w :: ws, visited, gid, acc =>
    if w ∈ visited then buildGroupsAux g ws visited gid acc
    else
      let r := groupBFS g (groupFuel g) (w :: visited) [w] []
      if r.2 = [] then buildGroupsAux g ws r.1 gid acc
      else buildGroupsAux g ws r.1 (gid + 1) (acc ++ [(gid, r.2)])

/-- The builder's `groups` record: component id → member list. -/
def buildGroups (g : List (Word × List Word)) (wordList : List Word) :
    List (Nat × List Word) :=
  buildGroupsAux g wordList [] 0 []

/-! ## The dictionary store (`loadDictionary`) and the `POST` handler -/

/-- The per-length artifact `{words, graph, groups}`. -/
structure DictionaryData where
  words : List Word
  graph : List (Word × List Word)
  groups : List (Nat × List Word)
deriving DecidableEq

/-- Model of the file system as seen by `loadDictionary` for one length:
does `data/words-<n>.json` exist, does `readFileSync` succeed, and what
does `JSON.parse` yield (`none` = parse throws). -/
structure FsFile where
  present : Bool
  readOk : Bool
  parsed : Option DictionaryData
deriving DecidableEq

/-- `loadDictionary(wordLength)`: serve from cache; otherwise return `null`
if the file is absent; otherwise read and parse — any thrown error is
caught and also yields `null`; only a successful parse populates the
cache. Returns (result, new cache). -/
def loadDictionary (fs : Nat → FsFile) (cache : List (Nat × DictionaryData))
    (wordLength : Nat) : Option DictionaryData × List (Nat × DictionaryData) :=
  match alookup cache wordLength with
  | some d => (some d, cache)
  | none =>
    if (fs wordLength).present = false then (none, cache)
    else
      match (if (fs wordLength).readOk then (fs wordLength).parsed else none) with
      | none => (none, cache)
      | some d => (some d, (wordLength, d) :: cache)

/-- `areInSameGroup(word1, word2, groups)`: some group contains both
uppercased words. -/
def areInSameGroup (word1 word2 : Word) (groups : List (Nat × List Word)) : Bool :=
  let w1 := upperW word1
  let w2 := upperW word2
  groups.any (fun pr => decide (w1 ∈ pr.2) && decide (w2 ∈ pr.2))

/-- The structured outcomes of the `POST` handler, in source order. -/
inductive ApiResult
  | missingWords
  | lengthMismatch
  | lengthOutOfRange
  | dictNotFound
  | wordNotFound
  | notConnected
  | noPath
  | ok (path : List Word) (len : Nat)
deriving DecidableEq

/-- The `POST` handler of the word-ladder route, with the dictionary store
abstracted as `store : length → artifact?`. The second component records
whether `findShortestPath` was invoked (it is `false` exactly on the
early-return branches that precede the search). -/
def apiResolve (store : Nat → Option DictionaryData) (startWord endWord : Word) :
    ApiResult × Bool :=
  if startWord = [] ∨ endWord = [] then (.missingWords, false)
  else
    let start := trimW (upperW startWord)
    let endW := trimW (upperW endWord)
    if start.length ≠ endW.length then (.lengthMismatch, false)
    else if start.length < 2 ∨ 15 < start.length then (.lengthOutOfRange, false)
    else
      match store start.length with
      | none => (.dictNotFound, false)
      | some dict =>
        if alookup dict.graph start = none ∨ alookup dict.graph endW = none then
          (.wordNotFound, false)
        else if areInSameGroup start endW dict.groups = false then
          (.notConnected, false)
        else
          match findShortestPath dict.graph start endW with
          | none => (.noPath, true)
          | some path =>
            if path.length < 2 then (.noPath, true) else (.ok path path.length, true)

/-! ## Specification-side notions: ladder paths, reachability, distance -/

/-- A valid ladder path from `a` to `b` in adjacency record `g`: nonempty,
starts at `a`, ends at `b`, consecutive elements adjacent. -/
def IsLadderPath (g : List (Word × List Word)) (a b : Word) (p : List Word) : Prop :=
  p.head? = some a ∧ p.getLast? = some b ∧ List.Chain' (fun x y => y ∈ nbrsOf g x) p

/-- A path of `n` edges (`n + 1` words) exists from `a` to `b`. -/
def HasPathLen (g : List (Word × List Word)) (a b : Word) (n : Nat) : Prop :=
  ∃ p, IsLadderPath g a b p ∧ p.length = n + 1

/-- Some finite path connects `a` to `b` in `g`. -/
def ReachG (g : List (Word × List Word)) (a b : Word) : Prop :=
  ∃ p, IsLadderPath g a b p

/-- `n` is the true graph distance from `a` to `b`: some path has `n` edges
and no path has fewer. -/
def IsGraphDist (g : List (Word × List Word)) (a b : Word) (n : Nat) : Prop :=
  HasPathLen g a b n ∧ ∀ m, HasPathLen g a b m → n ≤ m

/-- What the partitioner guarantees for one produced group: it is the set
of words reachable from some seed `s`, relative to a neighbour-closed set
`Vi` of previously grouped words that the group avoids. -/
def GroupPackage (g : List (Word × List Word)) (members : List Word) : Prop :=
  ∃ (s : Word) (Vi : List Word), s ∈ members ∧ s ∉ Vi ∧
    (∀ x ∈ Vi, ∀ n ∈ nbrsOf g x, n ∈ Vi) ∧
    (∀ x ∈ members, ReachG g s x) ∧
    (∀ x, ReachG g s x → x ∈ members ∨ x ∈ Vi) ∧
    (∀ x ∈ members, x ∉ Vi)

/-! ## Concrete fixtures used by witnesses and counterexamples -/

/-- A two-component 2-letter fixture: {AB, AC} and {XY, XZ}. -/
def W2 : List Word := [['A', 'B'], ['A', 'C'], ['X', 'Y'], ['X', 'Z']]

/-- A single-word fixture. -/
def W1 : List Word := [['A', 'B']]

/-- The artifact the offline builder produces for a word list. -/
def dictOf (ws : List Word) : DictionaryData :=
  { words := ws, graph := buildGraph ws, groups := buildGroups (buildGraph ws) ws }

/-- A store holding exactly one artifact, at length `L`. -/
def storeOf (L : Nat) (ws : List Word) : Nat → Option DictionaryData :=
  fun n => if n = L then some (dictOf ws) else none

/-! ## Basic lemmas -/

theorem mem_foldl_setInsert (l : List Word) (acc : List Word) (x : Word) :
    x ∈ l.foldl setInsert acc ↔ x ∈ acc ∨ x ∈ l := by
  induction l generalizing acc with
  | nil => simp
  | cons n ns ih =>
    simp only [List.foldl_cons, ih, setInsert]
    by_cases h : n ∈ acc
    · simp only [if_pos h, List.mem_cons]
      constructor
      · rintro (ha | hns)
        · exact Or.inl ha
        · exact Or.inr (Or.inr hns)
      · rintro (ha | rfl | hns)
        · exact Or.inl ha
        · exact Or.inl h
        · exact Or.inr hns
    · simp only [if_neg h, List.mem_append, List.mem_singleton, List.mem_cons]
      tauto

theorem mem_dedupFirst (l : List Word) (x : Word) : x ∈ dedupFirst l ↔ x ∈ l := by
  unfold dedupFirst
  rw [mem_foldl_setInsert]
  simp

theorem alookup_isSome_of_mem_keys {β : Type} (l : List (Word × β)) (a : Word)
    (h : a ∈ l.map Prod.fst) : ∃ b, alookup l a = some b := by
  induction l with
  | nil => simp at h
  | cons pr rest ih =>
    by_cases hk : pr.1 = a
    · exact ⟨pr.2, by simp [alookup, hk]⟩
    · simp only [List.map_cons, List.mem_cons] at h
      rcases h with h | h
      · exact absurd h.symm hk
      · obtain ⟨b, hb⟩ := ih h
        exact ⟨b, by simpa [alookup, hk] using hb⟩

theorem alookup_eq_none_of_not_mem_keys {β : Type} (l : List (Word × β)) (a : Word)
    (h : a ∉ l.map Prod.fst) : alookup l a = none := by
  induction l with
  | nil => rfl
  | cons pr rest ih =>
    simp only [List.map_cons, List.mem_cons, not_or] at h
    have h1 : ¬pr.1 = a := fun he => h.1 he.symm
    rw [alookup, if_neg h1]
    exact ih h.2

theorem alookup_mem_values {β : Type} {l : List (Word × β)} {a : Word} {b : β}
    (h : alookup l a = some b) : b ∈ l.map Prod.snd := by
  induction l with
  | nil => simp [alookup] at h
  | cons pr rest ih =>
    rw [alookup] at h
    by_cases hk : pr.1 = a
    · rw [if_pos hk] at h
      injection h with h
      rw [List.map_cons]
      exact h ▸ List.mem_cons_self _ _
    · rw [if_neg hk] at h
      rw [List.map_cons]
      exact List.mem_cons_of_mem _ (ih h)

theorem mem_nbrsOf_mem_flatMap {g : List (Word × List Word)} {w n : Word}
    (h : n ∈ nbrsOf g w) : n ∈ g.flatMap (fun pr => pr.2) := by
  unfold nbrsOf at h
  rcases he : alookup g w with _ | l
  · simp [he] at h
  · rw [he] at h
    simp only [Option.getD_some] at h
    have hv := alookup_mem_values he
    simp only [List.mem_map] at hv
    obtain ⟨pr, hpr, hval⟩ := hv
    exact List.mem_flatMap.mpr ⟨pr, hpr, hval ▸ h⟩

/-- A filter with a pointwise-stronger predicate is no longer. -/
theorem filter_length_mono {α : Type} (l : List α) (p q : α → Bool)
    (h : ∀ a ∈ l, p a = true → q a = true) :
    (l.filter p).length ≤ (l.filter q).length := by
  rw [← List.countP_eq_length_filter, ← List.countP_eq_length_filter]
  exact List.countP_mono_left h

/-- One new unvisited member of `S` strictly shrinks the unvisited pool. -/
theorem pool_shrink {S v : List Word} {x : Word} (hx : x ∈ S) (hxv : x ∉ v) :
    (S.filter (fun y => decide (y ∉ x :: v))).length + 1 ≤
      (S.filter (fun y => decide (y ∉ v))).length := by
  induction S with
  | nil => simp at hx
  | cons a S' ih =>
    have hmono : (S'.filter (fun y => decide (y ∉ x :: v))).length ≤
        (S'.filter (fun y => decide (y ∉ v))).length := by
      apply filter_length_mono
      intro y _ hy
      simp only [decide_eq_true_eq, List.mem_cons, not_or] at hy ⊢
      exact hy.2
    rw [List.filter_cons, List.filter_cons]
    rcases List.mem_cons.mp hx with rfl | haS
    · rw [if_neg (by simp), if_pos (by simpa using hxv)]
      simp only [List.length_cons]
      omega
    · by_cases hav : a ∈ v
      · rw [if_neg (by simp [hav]), if_neg (by simpa using hav)]
        exact ih haS
      · by_cases hax : a = x
        · subst hax
          rw [if_neg (by simp), if_pos (by simpa using hav)]
          simp only [List.length_cons]
          omega
        · rw [if_pos (by simp [hax, hav]), if_pos (by simpa using hav)]
          simp only [List.length_cons]
          have := ih haS
          omega

/-! ## Queue path-length shape: two consecutive blocks -/

/-- The lengths of the queued paths always form a block of some value `L`
followed by a block of `L + 1`. -/
def TwoBlock (l : List Nat) : Prop :=
  ∃ L a b, l = List.replicate a L ++ List.replicate b (L + 1)

theorem twoBlock_singleton (x : Nat) : TwoBlock [x] :=
  ⟨x, 1, 0, by simp⟩

theorem twoBlock_head_le {x : Nat} {l : List Nat} (h : TwoBlock (x :: l)) :
    ∀ y ∈ x :: l, x ≤ y := by
  obtain ⟨L, a, b, he⟩ := h
  cases a with
  | zero =>
    cases b with
    | zero => simp at he
    | succ b' =>
      rw [List.replicate_succ] at he
      simp only [List.replicate_zero, List.nil_append, List.cons.injEq] at he
      obtain ⟨rfl, hl⟩ := he
      intro y hy
      rcases List.mem_cons.mp hy with rfl | hy'
      · exact le_refl _
      · rw [hl] at hy'
        have := List.eq_of_mem_replicate hy'
        omega
  | succ a' =>
    rw [List.replicate_succ] at he
    simp only [List.cons_append, List.cons.injEq] at he
    obtain ⟨rfl, hl⟩ := he
    intro y hy
    rcases List.mem_cons.mp hy with rfl | hy'
    · exact le_refl _
    · rw [hl] at hy'
      rcases List.mem_append.mp hy' with h' | h'
      · have := List.eq_of_mem_replicate h'
        omega
      · have := List.eq_of_mem_replicate h'
        omega

theorem twoBlock_tail {x : Nat} {l : List Nat} (h : TwoBlock (x :: l)) : TwoBlock l := by
  obtain ⟨L, a, b, he⟩ := h
  cases a with
  | zero =>
    cases b with
    | zero => simp at he
    | succ b' =>
      rw [List.replicate_succ] at he
      simp only [List.replicate_zero, List.nil_append, List.cons.injEq] at he
      exact ⟨L + 1, b', 0, by simp [he.2]⟩
  | succ a' =>
    rw [List.replicate_succ] at he
    simp only [List.cons_append, List.cons.injEq] at he
    exact ⟨L, a', b, he.2⟩

theorem twoBlock_step {x : Nat} {l : List Nat} (h : TwoBlock (x :: l)) (k : Nat) :
    TwoBlock (l ++ List.replicate k (x + 1)) := by
  obtain ⟨L, a, b, he⟩ := h
  cases a with
  | zero =>
    cases b with
    | zero => simp at he
    | succ b' =>
      rw [List.replicate_succ] at he
      simp only [List.replicate_zero, List.nil_append, List.cons.injEq] at he
      obtain ⟨rfl, hl⟩ := he
      exact ⟨L + 1, b', k, by rw [hl]⟩
  | succ a' =>
    rw [List.replicate_succ] at he
    simp only [List.cons_append, List.cons.injEq] at he
    obtain ⟨rfl, hl⟩ := he
    refine ⟨x, a', b + k, ?_⟩
    rw [hl, List.append_assoc, ← List.replicate_add]

/-! ## Characterisation of the BFS push loop -/

section GenericBFSLemmas

variable {isTarget : Word → Bool} {expandOk : Nat → Bool}
variable {nbrs : Word → List Word} {keyF : Word → Word} {guardB : Word → Word → Bool}

theorem pushAll_spec (w : Word) (p : List Word) :
    ∀ (ns visited : List Word),
      (∀ x ∈ visited, x ∈ (pushAll keyF guardB w p visited ns).1) ∧
      (∀ e ∈ (pushAll keyF guardB w p visited ns).2,
        ∃ n, e = (n, p ++ [n]) ∧ n ∈ ns ∧ guardB w n = true ∧ keyF n ∉ visited) ∧
      (∀ n ∈ ns, guardB w n = true → keyF n ∈ (pushAll keyF guardB w p visited ns).1) ∧
      (∀ x ∈ (pushAll keyF guardB w p visited ns).1,
        x ∈ visited ∨ ∃ e ∈ (pushAll keyF guardB w p visited ns).2, keyF e.1 = x) ∧
      ((pushAll keyF guardB w p visited ns).2.map (fun e => e.2.length) =
        List.replicate (pushAll keyF guardB w p visited ns).2.length (p.length + 1)) := by
  intro ns
  induction ns with
  | nil =>
    intro visited
    refine ⟨fun x hx => hx, ?_, ?_, fun x hx => Or.inl hx, rfl⟩
    · intro e he
      simp [pushAll] at he
    · intro n hn
      simp at hn
  | cons n ns ih =>
    intro visited
    by_cases hc : keyF n ∉ visited ∧ guardB w n = true
    · have heq : pushAll keyF guardB w p visited (n :: ns) =
          ((pushAll keyF guardB w p (keyF n :: visited) ns).1,
            (n, p ++ [n]) :: (pushAll keyF guardB w p (keyF n :: visited) ns).2) := by
        rw [pushAll, if_pos hc]
      obtain ⟨h1, h2, h3, h4, h5⟩ := ih (keyF n :: visited)
      rw [heq]
      refine ⟨?_, ?_, ?_, ?_, ?_⟩
      · intro x hx
        exact h1 x (List.mem_cons_of_mem _ hx)
      · intro e he
        rcases List.mem_cons.mp he with rfl | he'
        · exact ⟨n, rfl, List.mem_cons_self _ _, hc.2, hc.1⟩
        · obtain ⟨m, hm1, hm2, hm3, hm4⟩ := h2 e he'
          exact ⟨m, hm1, List.mem_cons_of_mem _ hm2, hm3,
            fun hmm => hm4 (List.mem_cons_of_mem _ hmm)⟩
      · intro m hm hg
        rcases List.mem_cons.mp hm with rfl | hm'
        · exact h1 _ (List.mem_cons_self _ _)
        · exact h3 m hm' hg
      · intro x hx
        rcases h4 x hx with hv | ⟨e, he, hke⟩
        · rcases List.mem_cons.mp hv with rfl | hv'
          · exact Or.inr ⟨(n, p ++ [n]), List.mem_cons_self _ _, rfl⟩
          · exact Or.inl hv'
        · exact Or.inr ⟨e, List.mem_cons_of_mem _ he, hke⟩
      · simp only [List.map_cons, List.length_cons, List.replicate_succ, h5,
          List.length_append, List.length_cons, List.length_nil]
    · have heq : pushAll keyF guardB w p visited (n :: ns) =
          pushAll keyF guardB w p visited ns := by
        rw [pushAll, if_neg hc]
      obtain ⟨h1, h2, h3, h4, h5⟩ := ih visited
      rw [heq]
      push_neg at hc
      refine ⟨h1, ?_, ?_, h4, h5⟩
      · intro e he
        obtain ⟨m, hm1, hm2, hm3, hm4⟩ := h2 e he
        exact ⟨m, hm1, List.mem_cons_of_mem _ hm2, hm3, hm4⟩
      · intro m hm hg
        rcases List.mem_cons.mp hm with rfl | hm'
        · by_cases hkv : keyF m ∈ visited
          · exact h1 _ hkv
          · exact absurd (hc hkv) (by simp [hg])
        · exact h3 m hm' hg

theorem pushAll_measure (w : Word) (p : List Word) (S : List Word) :
    ∀ (ns visited : List Word), (∀ n ∈ ns, guardB w n = true → keyF n ∈ S) →
      (S.filter (fun y => decide (y ∉ (pushAll keyF guardB w p visited ns).1))).length
        + (pushAll keyF guardB w p visited ns).2.length
      ≤ (S.filter (fun y => decide (y ∉ visited))).length := by
  intro ns
  induction ns with
  | nil =>
    intro visited _
    simp [pushAll]
  | cons n ns ih =>
    intro visited hS
    by_cases hc : keyF n ∉ visited ∧ guardB w n = true
    · have heq : pushAll keyF guardB w p visited (n :: ns) =
          ((pushAll keyF guardB w p (keyF n :: visited) ns).1,
            (n, p ++ [n]) :: (pushAll keyF guardB w p (keyF n :: visited) ns).2) := by
        rw [pushAll, if_pos hc]
      rw [heq]
      have hih := ih (keyF n :: visited) (fun m hm hg => hS m (List.mem_cons_of_mem _ hm) hg)
      have hshrink := pool_shrink (hS n (List.mem_cons_self _ _) hc.2) hc.1
      simp only [List.length_cons]
      omega
    · have heq : pushAll keyF guardB w p visited (n :: ns) =
          pushAll keyF guardB w p visited ns := by
        rw [pushAll, if_neg hc]
      rw [heq]
      exact ih visited (fun m hm hg => hS m (List.mem_cons_of_mem _ hm) hg)

end GenericBFSLemmas

/-! ## More list helpers -/

theorem mem_of_getLast?_eq {α : Type} {l : List α} {a : α} (h : l.getLast? = some a) :
    a ∈ l := by
  have hmem : a ∈ l.getLast? := by rw [h]; rfl
  obtain ⟨h0, heq⟩ := List.mem_getLast?_eq_getLast hmem
  rw [heq]
  exact List.getLast_mem h0

theorem head?_append_left {α : Type} {p : List α} {a : α} (x : List α)
    (h : p.head? = some a) : (p ++ x).head? = some a := by
  cases p with
  | nil => simp at h
  | cons b t => simpa using h

theorem chain'_rel_of_get? {α : Type} {R : α → α → Prop} {l : List α}
    (h : List.Chain' R l) {i : Nat} {x y : α}
    (hx : l.get? i = some x) (hy : l.get? (i + 1) = some y) : R x y := by
  have hi1 : i + 1 < l.length := by
    rcases List.get?_eq_some.mp hy with ⟨h', _⟩
    exact h'
  have hgx := List.get?_eq_get (show i < l.length by omega)
  have hgy := List.get?_eq_get hi1
  rw [hx] at hgx
  rw [hy] at hgy
  injection hgx with hgx
  injection hgy with hgy
  rw [List.chain'_iff_get] at h
  rw [hgx, hgy]
  exact h i (by omega)

theorem get?_eq_getLast?_of_succ_len {α : Type} {l : List α} {j : Nat}
    (hj : j + 1 = l.length) : l.get? j = l.getLast? := by
  rw [List.getLast?_eq_getElem? l, List.get?_eq_getElem?]
  congr 1
  omega

/-! ## The BFS master invariant and correctness theorem -/

section BFSMaster

variable (isTarget : Word → Bool) (expandOk : Nat → Bool)
variable (nbrs : Word → List Word) (keyF : Word → Word) (guardB : Word → Word → Bool)
variable (Good : Word → Prop)

/-- The effective push relation of the BFS loop: `b` is offered by the
neighbour enumeration of `a` and passes the push guard. -/
def AdjP (a b : Word) : Prop := b ∈ nbrs a ∧ guardB a b = true

/-- Queue-entry invariant: `(w, p)` holds a valid all-`Good` path from
`start` to `w`. -/
def GoodEntry (start : Word) (e : Word × List Word) : Prop :=
  e.2.head? = some start ∧ e.2.getLast? = some e.1 ∧
    List.Chain' (AdjP nbrs guardB) e.2 ∧ ∀ x ∈ e.2, Good x

/-- A candidate solution: an all-`Good` path from `start` to a target word
all of whose proper prefixes the loop is allowed to extend. -/
def ValidRun (start : Word) (q : List Word) : Prop :=
  q.head? = some start ∧ (∃ z, q.getLast? = some z ∧ isTarget z = true) ∧
    List.Chain' (AdjP nbrs guardB) q ∧ (∀ x ∈ q, Good x) ∧
    ∀ m, m < q.length → expandOk m = true

/-- Frontier-cut invariant: every candidate solution is touched by some
queue entry whose stored path is no longer than the touched prefix, and
the candidate is unvisited strictly beyond the touch point. -/
def CutInv (start : Word) (visited : List Word) (queue : List (Word × List Word)) : Prop :=
  ∀ q, ValidRun isTarget expandOk nbrs guardB Good start q →
    ∃ j w' p', j < q.length ∧ q.get? j = some w' ∧ (w', p') ∈ queue ∧
      p'.length ≤ j + 1 ∧
      ∀ k x, j < k → q.get? k = some x → keyF x ∉ visited

/-- Full loop invariant. -/
def BfsInv (start : Word) (visited : List Word) (queue : List (Word × List Word)) : Prop :=
  (∀ e ∈ queue, GoodEntry nbrs guardB Good start e) ∧
    TwoBlock (queue.map (fun e => e.2.length)) ∧
    CutInv isTarget expandOk nbrs keyF guardB Good start visited queue

end BFSMaster

/-- BFS master theorem: with enough fuel and the loop invariant, the loop
never exhausts its fuel; a returned path is a valid all-`Good` path from
`start` to a target word and is no longer than any candidate solution; and
`null` is returned only when no candidate solution exists. -/
theorem bfsLoop_master
    (isTarget : Word → Bool) (expandOk : Nat → Bool) (nbrs : Word → List Word)
    (keyF : Word → Word) (guardB : Word → Word → Bool) (Good : Word → Prop)
    (S : List Word) (start : Word)
    (hClosure : ∀ a b, Good a → b ∈ nbrs a → guardB a b = true → Good b)
    (hKeyId : ∀ a, Good a → keyF a = a)
    (hS : ∀ a b, Good a → b ∈ nbrs a → guardB a b = true → keyF b ∈ S) :
    ∀ (fuel : Nat) (visited : List Word) (queue : List (Word × List Word)),
      BfsInv isTarget expandOk nbrs keyF guardB Good start visited queue →
      queue.length + (S.filter (fun y => decide (y ∉ visited))).length + 1 ≤ fuel →
      bfsLoop isTarget expandOk nbrs keyF guardB fuel visited queue ≠ none ∧
      (∀ p, bfsLoop isTarget expandOk nbrs keyF guardB fuel visited queue = some (some p) →
        (p.head? = some start ∧ (∃ z, p.getLast? = some z ∧ isTarget z = true) ∧
          List.Chain' (AdjP nbrs guardB) p ∧ (∀ x ∈ p, Good x)) ∧
        ∀ q, ValidRun isTarget expandOk nbrs guardB Good start q → p.length ≤ q.length) ∧
      (bfsLoop isTarget expandOk nbrs keyF guardB fuel visited queue = some none →
        ∀ q, ¬ ValidRun isTarget expandOk nbrs guardB Good start q) := by
  intro fuel
  induction fuel with
  | zero =>
    intro visited queue _ hfuel
    exact absurd hfuel (by omega)
  | succ fuel ih =>
    intro visited queue hinv hfuel
    obtain ⟨hent, htb, hcut⟩ := hinv
    match queue with
    | [] =>
      refine ⟨by simp [bfsLoop], ?_, ?_⟩
      · intro p hp
        simp [bfsLoop] at hp
      · intro _ q hq
        obtain ⟨j, w', p', hj, hget, hin, _, _⟩ := hcut q hq
        simp at hin
    | (w, p) :: rest =>
      have hfront := hent (w, p) (List.mem_cons_self _ _)
      have hfh : p.head? = some start := hfront.1
      have hfl : p.getLast? = some w := hfront.2.1
      have hfc : List.Chain' (AdjP nbrs guardB) p := hfront.2.2.1
      have hfg : ∀ x ∈ p, Good x := hfront.2.2.2
      have hwGood : Good w := hfg w (mem_of_getLast?_eq hfl)
      have htbc : TwoBlock (p.length :: rest.map (fun e => e.2.length)) := htb
      by_cases ht : isTarget w = true
      · have heq : bfsLoop isTarget expandOk nbrs keyF guardB (fuel + 1) visited
            ((w, p) :: rest) = some (some p) := by
          simp only [bfsLoop]
          rw [if_pos ht]
        rw [heq]
        refine ⟨by simp, ?_, by simp⟩
        intro p0 hp0
        injection hp0 with hp0
        injection hp0 with hp0
        subst hp0
        refine ⟨⟨hfh, ⟨w, hfl, ht⟩, hfc, hfg⟩, ?_⟩
        intro q hq
        obtain ⟨j, w', p', hj, hget, hin, hplen, _⟩ := hcut q hq
        have hmem : p'.length ∈ p.length :: rest.map (fun e => e.2.length) := by
          have : p'.length ∈ ((w, p) :: rest).map (fun e => e.2.length) :=
            List.mem_map.mpr ⟨(w', p'), hin, rfl⟩
          exact this
        have hle := twoBlock_head_le htbc _ hmem
        omega
      · by_cases hexp : expandOk p.length = true
        · -- expansion step
          have heq : bfsLoop isTarget expandOk nbrs keyF guardB (fuel + 1) visited
              ((w, p) :: rest) =
              bfsLoop isTarget expandOk nbrs keyF guardB fuel
                (pushAll keyF guardB w p visited (nbrs w)).1
                (rest ++ (pushAll keyF guardB w p visited (nbrs w)).2) := by
            simp only [bfsLoop]
            rw [if_neg ht, if_pos hexp]
          obtain ⟨h1, h2, h3, h4, h5⟩ :=
            @pushAll_spec keyF guardB w p (nbrs w) visited
          have hentNew : ∀ e ∈ rest ++ (pushAll keyF guardB w p visited (nbrs w)).2,
              GoodEntry nbrs guardB Good start e := by
            intro e he
            rcases List.mem_append.mp he with he' | he'
            · exact hent e (List.mem_cons_of_mem _ he')
            · obtain ⟨n, rfl, hn_mem, hng, _⟩ := h2 e he'
              have hnGood : Good n := hClosure w n hwGood hn_mem hng
              refine ⟨head?_append_left _ hfh, List.getLast?_concat _, ?_, ?_⟩
              · rw [List.chain'_append]
                refine ⟨hfc, List.chain'_singleton _, ?_⟩
                intro x hx y hy
                rw [hfl] at hx
                simp only [Option.mem_def, Option.some.injEq] at hx
                simp only [List.head?_cons, Option.mem_def, Option.some.injEq] at hy
                subst hx; subst hy
                exact ⟨hn_mem, hng⟩
              · intro x hx
                rcases List.mem_append.mp hx with hx' | hx'
                · exact hfg x hx'
                · rw [List.mem_singleton.mp hx']
                  exact hnGood
          have htbNew : TwoBlock ((rest ++ (pushAll keyF guardB w p visited (nbrs w)).2).map
              (fun e => e.2.length)) := by
            rw [List.map_append, h5]
            exact twoBlock_step htbc _
          have hcutNew : CutInv isTarget expandOk nbrs keyF guardB Good start
              (pushAll keyF guardB w p visited (nbrs w)).1
              (rest ++ (pushAll keyF guardB w p visited (nbrs w)).2) := by
            intro q hq
            classical
            obtain ⟨j, w', p', hj, hgetj, hinq, hplen, htail⟩ := hcut q hq
            have hqgood : ∀ x ∈ q, Good x := hq.2.2.2.1
            have hple : p.length ≤ p'.length := by
              have hmm : p'.length ∈ ((w, p) :: rest).map (fun e => e.2.length) :=
                List.mem_map.mpr ⟨(w', p'), hinq, rfl⟩
              exact twoBlock_head_le htbc _ hmm
            set P : Nat → Prop := fun k => ∃ x, j < k ∧ q.get? k = some x ∧
              keyF x ∈ (pushAll keyF guardB w p visited (nbrs w)).1 with hPdef
            by_cases hEx : ∃ k, P k
            · obtain ⟨k0, hk0⟩ := hEx
              obtain ⟨x0, hk0j, hk0get, hk0r⟩ := hk0
              have hk0b : k0 ≤ q.length := by
                rcases List.get?_eq_some.mp hk0get with ⟨h', _⟩
                omega
              have hPk0 : P k0 := ⟨x0, hk0j, hk0get, hk0r⟩
              obtain ⟨xk, hjkm, hgetkm, hxkr⟩ :=
                Nat.findGreatest_spec (P := P) hk0b hPk0
              have hkmlt : Nat.findGreatest P q.length < q.length := by
                rcases List.get?_eq_some.mp hgetkm with ⟨h', _⟩
                omega
              have hxkGood : Good xk := hqgood xk (List.get?_mem hgetkm)
              have hxkvis : keyF xk ∉ visited := htail _ xk hjkm hgetkm
              have hkeyxk : keyF xk = xk := hKeyId xk hxkGood
              rw [hkeyxk] at hxkr hxkvis
              rcases h4 xk hxkr with hvis | ⟨e, her, hke⟩
              · exact absurd hvis hxkvis
              · obtain ⟨n, hne, hn_mem, hng, _⟩ := h2 e her
                have hnGood : Good n := hClosure w n hwGood hn_mem hng
                have hkn : keyF n = n := hKeyId n hnGood
                have hn_eq : n = xk := by
                  rw [hne] at hke
                  simpa [hkn] using hke
                refine ⟨Nat.findGreatest P q.length, xk, p ++ [n], hkmlt, hgetkm,
                  ?_, ?_, ?_⟩
                · apply List.mem_append_right
                  rw [← hn_eq]
                  rw [hne] at her
                  exact her
                · simp only [List.length_append, List.length_cons, List.length_nil]
                  omega
                · intro k x hkk hgetk hxr
                  have hklt : k < q.length := by
                    rcases List.get?_eq_some.mp hgetk with ⟨h', _⟩
                    exact h'
                  have hnP := Nat.findGreatest_is_greatest (P := P) hkk (le_of_lt hklt)
                  exact hnP ⟨x, by omega, hgetk, hxr⟩
            · have hEx' : ∀ k x, j < k → q.get? k = some x →
                  keyF x ∉ (pushAll keyF guardB w p visited (nbrs w)).1 := by
                intro k x hkk hgetk hxr
                exact hEx ⟨k, x, hkk, hgetk, hxr⟩
              have hinrest : (w', p') ∈ rest := by
                rcases List.mem_cons.mp hinq with heqf | h
                · exfalso
                  have hw' : w' = w := congrArg Prod.fst heqf
                  rw [hw'] at hgetj
                  have hjlast : j + 1 < q.length := by
                    rcases Nat.lt_or_ge (j + 1) q.length with h' | h'
                    · exact h'
                    · exfalso
                      have hj1 : j + 1 = q.length := by omega
                      obtain ⟨z, hz, hzt⟩ := hq.2.1
                      have hzj : q.get? j = q.getLast? := get?_eq_getLast?_of_succ_len hj1
                      rw [hgetj, hz] at hzj
                      injection hzj with hzj
                      rw [hzj] at ht
                      exact ht hzt
                  obtain ⟨u, hu⟩ : ∃ u, q.get? (j + 1) = some u :=
                    ⟨_, List.get?_eq_get hjlast⟩
                  have hadj : AdjP nbrs guardB w u :=
                    chain'_rel_of_get? hq.2.2.1 hgetj hu
                  have hkeyu : keyF u ∈ (pushAll keyF guardB w p visited (nbrs w)).1 :=
                    h3 u hadj.1 hadj.2
                  exact hEx' (j + 1) u (by omega) hu hkeyu
                · exact h
              refine ⟨j, w', p', hj, hgetj, List.mem_append_left _ hinrest, hplen, ?_⟩
              intro k x hkk hgetk
              exact hEx' k x hkk hgetk
          have hm := @pushAll_measure keyF guardB w p S (nbrs w)
            visited (fun n hn hg => hS w n hwGood hn hg)
          rw [heq]
          apply ih _ _ ⟨hentNew, htbNew, hcutNew⟩
          simp only [List.length_append, List.length_cons] at hfuel ⊢
          omega
        · -- pruned step: front path not extended
          have heq : bfsLoop isTarget expandOk nbrs keyF guardB (fuel + 1) visited
              ((w, p) :: rest) =
              bfsLoop isTarget expandOk nbrs keyF guardB fuel visited rest := by
            simp only [bfsLoop]
            rw [if_neg ht, if_neg hexp]
          have hcutNew : CutInv isTarget expandOk nbrs keyF guardB Good start
              visited rest := by
            intro q hq
            obtain ⟨j, w', p', hj, hgetj, hinq, hplen, htail⟩ := hcut q hq
            rcases List.mem_cons.mp hinq with heqf | h
            · exfalso
              have hw' : w' = w := congrArg Prod.fst heqf
              have hp' : p' = p := congrArg Prod.snd heqf
              rw [hw'] at hgetj
              rw [hp'] at hplen
              rcases Nat.lt_or_ge (j + 1) q.length with h' | h'
              · have hlen : p.length < q.length := by omega
                exact hexp (hq.2.2.2.2 p.length hlen)
              · have hj1 : j + 1 = q.length := by omega
                obtain ⟨z, hz, hzt⟩ := hq.2.1
                have hzj : q.get? j = q.getLast? := get?_eq_getLast?_of_succ_len hj1
                rw [hgetj, hz] at hzj
                injection hzj with hzj
                rw [hzj] at ht
                exact ht hzt
            · exact ⟨j, w', p', hj, hgetj, h, hplen, htail⟩
          rw [heq]
          apply ih _ _ ⟨fun e he => hent e (List.mem_cons_of_mem _ he),
            twoBlock_tail htbc, hcutNew⟩
          simp only [List.length_cons] at hfuel
          omega

/-- The initial BFS state `visited = [key start]`, `queue = [(start, [start])]`
satisfies the full loop invariant. -/
theorem bfsInv_init
    (isTarget : Word → Bool) (expandOk : Nat → Bool) (nbrs : Word → List Word)
    (keyF : Word → Word) (guardB : Word → Word → Bool) (Good : Word → Prop)
    (start : Word) (hGoodStart : Good start) (hKeyId : ∀ a, Good a → keyF a = a) :
    BfsInv isTarget expandOk nbrs keyF guardB Good start [keyF start]
      [(start, [start])] := by
  refine ⟨?_, ?_, ?_⟩
  · intro e he
    rw [List.mem_singleton] at he
    subst he
    exact ⟨rfl, rfl, List.chain'_singleton _, by
      intro x hx
      rw [List.mem_singleton.mp hx]
      exact hGoodStart⟩
  · exact twoBlock_singleton 1
  · intro q hq
    classical
    have hqgood : ∀ x ∈ q, Good x := hq.2.2.2.1
    have hget0 : q.get? 0 = some start := by
      cases q with
      | nil => simp [ValidRun] at hq
      | cons a t =>
        have : (a :: t).head? = some a := rfl
        have ha := hq.1
        rw [this] at ha
        injection ha with ha
        rw [ha]
        rfl
    set P : Nat → Prop := fun k => ∃ x, q.get? k = some x ∧ keyF x = keyF start
      with hPdef
    have hP0 : P 0 := ⟨start, hget0, rfl⟩
    have h0b : (0 : Nat) ≤ q.length := Nat.zero_le _
    obtain ⟨xj, hgetj, hkeyj⟩ := Nat.findGreatest_spec (P := P) h0b hP0
    have hjlt : Nat.findGreatest P q.length < q.length := by
      rcases List.get?_eq_some.mp hgetj with ⟨h', _⟩
      exact h'
    have hxjGood : Good xj := hqgood xj (List.get?_mem hgetj)
    have hxj : xj = start := by
      have h1 := hKeyId xj hxjGood
      have h2 := hKeyId start hGoodStart
      rw [h1, h2] at hkeyj
      exact hkeyj
    subst hxj
    refine ⟨Nat.findGreatest P q.length, xj, [xj], hjlt, hgetj,
      List.mem_singleton.mpr rfl, by simp, ?_⟩
    intro k x hkk hgetk hxmem
    have hklt : k < q.length := by
      rcases List.get?_eq_some.mp hgetk with ⟨h', _⟩
      exact h'
    have hnP := Nat.findGreatest_is_greatest (P := P) hkk (le_of_lt hklt)
    rw [List.mem_singleton] at hxmem
    exact hnP ⟨x, hgetk, hxmem⟩

/-! ## Resolver correctness: `findShortestPath` -/

/-- Soundness of `findShortestPath`: a returned path starts at the
uppercased start word, ends at the uppercased end word, and each
consecutive pair is adjacent in the graph record. -/
theorem findShortestPath_sound {g : List (Word × List Word)} {s e : Word}
    {p : List Word} (hp : findShortestPath g s e = some p) :
    p.head? = some (upperW s) ∧ p.getLast? = some (upperW e) ∧
      List.Chain' (fun x y => y ∈ nbrsOf g x) p := by
  unfold findShortestPath at hp
  by_cases hkeys : alookup g (upperW s) = none ∨ alookup g (upperW e) = none
  · rw [if_pos hkeys] at hp
    exact absurd hp (by simp)
  · rw [if_neg hkeys] at hp
    by_cases hid : upperW s = upperW e
    · rw [if_pos hid] at hp
      injection hp with hp
      subst hp
      exact ⟨rfl, by rw [hid]; rfl, List.chain'_singleton _⟩
    · rw [if_neg hid] at hp
      have hinit := bfsInv_init (fun w => decide (w = upperW e)) (fun _ => true)
        (fun w => nbrsOf g w) (fun w => w) (fun _ _ => true) (fun _ => True)
        (upperW s) trivial (fun _ _ => rfl)
      have hmaster := bfsLoop_master (fun w => decide (w = upperW e)) (fun _ => true)
        (fun w => nbrsOf g w) (fun w => w) (fun _ _ => true) (fun _ => True)
        (g.flatMap (fun pr => pr.2)) (upperW s)
        (fun _ _ _ _ _ => trivial) (fun _ _ => rfl)
        (fun a b _ hb _ => mem_nbrsOf_mem_flatMap hb)
        ((g.flatMap (fun pr => pr.2)).length + 2) [upperW s] [(upperW s, [upperW s])]
        hinit
        (by
          have := List.length_filter_le (fun y => decide (y ∉ [upperW s]))
            (g.flatMap (fun pr => pr.2))
          simp only [List.length_cons, List.length_nil]
          omega)
      rcases hloop : bfsLoop (fun w => decide (w = upperW e)) (fun _ => true)
          (fun w => nbrsOf g w) (fun w => w) (fun _ _ => true)
          ((g.flatMap (fun pr => pr.2)).length + 2) [upperW s]
          [(upperW s, [upperW s])] with _ | r
      · exact absurd hloop hmaster.1
      · rw [hloop] at hp
        cases r with
        | none => exact absurd hp (by simp)
        | some p0 =>
          simp only [Option.some.injEq] at hp
          subst hp
          obtain ⟨⟨hh, ⟨z, hz, hzt⟩, hc, _⟩, _⟩ := hmaster.2.1 p0 hloop
          rw [decide_eq_true_eq] at hzt
          subst hzt
          refine ⟨hh, hz, ?_⟩
          exact hc.imp (fun a b hab => hab.1)

/-- Candidate solutions of the `findShortestPath` BFS instantiation are
exactly the ladder paths from `start` to `endW`. -/
theorem validRun_iff_ladder (g : List (Word × List Word)) (start endW : Word)
    (q : List Word) :
    ValidRun (fun w => decide (w = endW)) (fun _ => true) (fun w => nbrsOf g w)
      (fun _ _ => true) (fun _ => True) start q ↔ IsLadderPath g start endW q := by
  constructor
  · rintro ⟨h1, ⟨z, hz, hzt⟩, hc, _, _⟩
    rw [decide_eq_true_eq] at hzt
    subst hzt
    exact ⟨h1, hz, hc.imp (fun a b hab => hab.1)⟩
  · rintro ⟨h1, h2, hc⟩
    refine ⟨h1, ⟨endW, h2, by simp⟩, ?_, fun _ _ => trivial, fun _ _ => rfl⟩
    exact hc.imp (fun a b hab => ⟨hab, rfl⟩)

/-- Minimality and completeness of `findShortestPath`: if both words are
graph keys and some ladder path connects them, the function returns a path
realising the graph distance. -/
theorem findShortestPath_minimal (g : List (Word × List Word))
    (startWord endWord : Word)
    (hs : alookup g (upperW startWord) ≠ none)
    (he : alookup g (upperW endWord) ≠ none)
    (hreach : ReachG g (upperW startWord) (upperW endWord)) :
    ∃ p n, findShortestPath g startWord endWord = some p ∧
      IsGraphDist g (upperW startWord) (upperW endWord) n ∧ p.length = n + 1 := by
  by_cases hid : upperW startWord = upperW endWord
  · refine ⟨[upperW startWord], 0, ?_, ?_, rfl⟩
    · unfold findShortestPath
      rw [if_neg (by push_neg; exact ⟨hs, he⟩), if_pos hid]
    · constructor
      · exact ⟨[upperW startWord], ⟨rfl, by rw [hid]; rfl, List.chain'_singleton _⟩, rfl⟩
      · intro m _
        omega
  · obtain ⟨q0, hq0⟩ := hreach
    have hq0v := (validRun_iff_ladder g (upperW startWord) (upperW endWord) q0).mpr hq0
    have hinit := bfsInv_init (fun w => decide (w = upperW endWord)) (fun _ => true)
      (fun w => nbrsOf g w) (fun w => w) (fun _ _ => true) (fun _ => True)
      (upperW startWord) trivial (fun _ _ => rfl)
    have hmaster := bfsLoop_master (fun w => decide (w = upperW endWord)) (fun _ => true)
      (fun w => nbrsOf g w) (fun w => w) (fun _ _ => true) (fun _ => True)
      (g.flatMap (fun pr => pr.2)) (upperW startWord)
      (fun _ _ _ _ _ => trivial) (fun _ _ => rfl)
      (fun a b _ hb _ => mem_nbrsOf_mem_flatMap hb)
      ((g.flatMap (fun pr => pr.2)).length + 2) [upperW startWord]
      [(upperW startWord, [upperW startWord])]
      hinit
      (by
        have := List.length_filter_le (fun y => decide (y ∉ [upperW startWord]))
          (g.flatMap (fun pr => pr.2))
        simp only [List.length_cons, List.length_nil]
        omega)
    rcases hloop : bfsLoop (fun w => decide (w = upperW endWord)) (fun _ => true)
        (fun w => nbrsOf g w) (fun w => w) (fun _ _ => true)
        ((g.flatMap (fun pr => pr.2)).length + 2) [upperW startWord]
        [(upperW startWord, [upperW startWord])] with _ | r
    · exact absurd hloop hmaster.1
    · cases r with
      | none => exact absurd hq0v (hmaster.2.2 hloop q0)
      | some p0 =>
        have hfsp : findShortestPath g startWord endWord = some p0 := by
          unfold findShortestPath
          rw [if_neg (by push_neg; exact ⟨hs, he⟩), if_neg hid, hloop]
        obtain ⟨⟨hh, ⟨z, hz, hzt⟩, hc, _⟩, hmin⟩ := hmaster.2.1 p0 hloop
        rw [decide_eq_true_eq] at hzt
        subst hzt
        have hlad : IsLadderPath g (upperW startWord) (upperW endWord) p0 :=
          ⟨hh, hz, hc.imp (fun a b hab => hab.1)⟩
        have hlen1 : 1 ≤ p0.length := by
          cases p0 with
          | nil => simp at hh
          | cons a t => simp
        refine ⟨p0, p0.length - 1, hfsp, ⟨⟨p0, hlad, by omega⟩, ?_⟩, by omega⟩
        intro m hm
        obtain ⟨qm, hqm, hqmlen⟩ := hm
        have := hmin qm ((validRun_iff_ladder g _ _ qm).mpr hqm)
        omega

/-! ## `OneAway` characterised by a single differing position -/

theorem diffCountRaw_cons (x y : Char) (xs ys : Word) :
    diffCountRaw (x :: xs) (y :: ys) =
      diffCountRaw xs ys + (if x = y then 0 else 1) := by
  by_cases h : x = y
  · simp [diffCountRaw, List.countP_cons, h]
  · simp [diffCountRaw, List.countP_cons, h]

theorem diffCountRaw_self (l : Word) : diffCountRaw l l = 0 := by
  induction l with
  | nil => rfl
  | cons x xs ih => rw [diffCountRaw_cons, ih, if_pos rfl]

theorem diffCountRaw_comm (a b : Word) : diffCountRaw a b = diffCountRaw b a := by
  induction a generalizing b with
  | nil => cases b <;> rfl
  | cons x xs ih =>
    cases b with
    | nil => rfl
    | cons y ys =>
      rw [diffCountRaw_cons, diffCountRaw_cons, ih]
      by_cases h : x = y
      · rw [if_pos h, if_pos h.symm]
      · rw [if_neg h, if_neg (fun h' => h h'.symm)]

theorem diffCountRaw_eq_zero {a b : Word} (hl : a.length = b.length)
    (h : diffCountRaw a b = 0) : a = b := by
  induction a generalizing b with
  | nil =>
    cases b with
    | nil => rfl
    | cons y ys => simp at hl
  | cons x xs ih =>
    cases b with
    | nil => simp at hl
    | cons y ys =>
      rw [diffCountRaw_cons] at h
      by_cases hxy : x = y
      · rw [if_pos hxy] at h
        simp only [List.length_cons, Nat.succ.injEq] at hl
        rw [hxy, ih hl (by omega)]
      · rw [if_neg hxy] at h
        omega

theorem oneAway_split {a b : Word} (h : OneAway a b) :
    ∃ i, i < a.length ∧ i < b.length ∧ a.take i = b.take i ∧
      a.drop (i + 1) = b.drop (i + 1) ∧ a.get? i ≠ b.get? i := by
  obtain ⟨hl, hc⟩ := h
  induction a generalizing b with
  | nil =>
    cases b with
    | nil => simp [diffCountRaw] at hc
    | cons y ys => simp at hl
  | cons x xs ih =>
    cases b with
    | nil => simp at hl
    | cons y ys =>
      simp only [List.length_cons, Nat.succ.injEq] at hl
      rw [diffCountRaw_cons] at hc
      by_cases hxy : x = y
      · rw [if_pos hxy] at hc
        simp only [Nat.add_zero] at hc
        obtain ⟨i, hia, hib, ht, hd, hne⟩ := ih hl hc
        exact ⟨i + 1, by simpa using hia, by simpa using hib,
          by simp [List.take_succ_cons, ht, hxy],
          by simpa using hd, by simpa using hne⟩
      · rw [if_neg hxy] at hc
        have hc0 : diffCountRaw xs ys = 0 := by omega
        have hxseq : xs = ys := diffCountRaw_eq_zero hl hc0
        refine ⟨0, by simp, by simp, rfl, by simpa using hxseq, ?_⟩
        simp only [List.get?]
        intro hcon
        injection hcon with hcon
        exact hxy hcon

theorem oneAway_of_split {a b : Word} (hl : a.length = b.length) (i : Nat)
    (hia : i < a.length) (ht : a.take i = b.take i)
    (hd : a.drop (i + 1) = b.drop (i + 1)) (hne : a.get? i ≠ b.get? i) :
    OneAway a b := by
  refine ⟨hl, ?_⟩
  induction i generalizing a b with
  | zero =>
    cases a with
    | nil => simp at hia
    | cons x xs =>
      cases b with
      | nil => simp at hl
      | cons y ys =>
        have hxy : x ≠ y := by
          intro hcon
          apply hne
          simp [hcon]
        have hxseq : xs = ys := by simpa using hd
        rw [diffCountRaw_cons, if_neg hxy, hxseq, diffCountRaw_self]
  | succ i ihi =>
    cases a with
    | nil => simp at hia
    | cons x xs =>
      cases b with
      | nil => simp at hl
      | cons y ys =>
        simp only [List.take_succ_cons, List.cons.injEq] at ht
        rw [diffCountRaw_cons, if_pos ht.1]
        simp only [List.length_cons, Nat.succ.injEq] at hl
        have := ihi hl (by simpa using hia) ht.2 (by simpa using hd)
          (by simpa using hne)
        omega

/-! ## Wildcard patterns -/

theorem patternOf_get?_self {a : Word} {i : Nat} (hi : i ≤ a.length) :
    (patternOf a i).get? i = some '_' := by
  unfold patternOf
  rw [List.get?_append_right (by simp [List.length_take])]
  simp [List.length_take, Nat.min_eq_left hi]

theorem patternOf_get?_of_ne {a : Word} {i k : Nat} (hi : i ≤ a.length)
    (hk : k ≠ i) : (patternOf a i).get? k = a.get? k := by
  unfold patternOf
  rcases Nat.lt_or_ge k i with hlt | hge
  · rw [List.get?_append (by simp [List.length_take]; omega)]
    exact List.get?_take hlt
  · have hgt : i < k := by omega
    rw [List.get?_append_right (by simp [List.length_take]; omega)]
    have hmin : (a.take i).length = i := by simp [List.length_take]; omega
    rw [hmin]
    have h1 : k - i = (k - i - 1) + 1 := by omega
    rw [h1]
    simp only [List.get?_cons_succ]
    rw [List.get?_drop]
    congr 1
    omega

theorem patternOf_underscore_pos {a : Word} {i k : Nat} (hu : '_' ∉ a)
    (hi : i ≤ a.length) (h : (patternOf a i).get? k = some '_') : k = i := by
  by_contra hk
  rw [patternOf_get?_of_ne hi hk] at h
  exact hu (List.get?_mem h)

theorem patternOf_cross_pos {a b : Word} {i j : Nat} (hua : '_' ∉ a) (hub : '_' ∉ b)
    (hi : i ≤ a.length) (hj : j ≤ b.length)
    (h : patternOf a i = patternOf b j) : i = j := by
  have h1 : (patternOf b j).get? i = some '_' := by
    rw [← h]
    exact patternOf_get?_self hi
  exact patternOf_underscore_pos hub hj h1

theorem patternOf_eq_iff {a b : Word} {i : Nat} (hia : i ≤ a.length)
    (hib : i ≤ b.length) :
    patternOf a i = patternOf b i ↔
      a.take i = b.take i ∧ a.drop (i + 1) = b.drop (i + 1) := by
  constructor
  · intro h
    unfold patternOf at h
    have hlen : (a.take i).length = (b.take i).length := by
      simp [List.length_take]
      omega
    obtain ⟨h1, h2⟩ := List.append_inj h hlen
    refine ⟨h1, ?_⟩
    injection h2
  · rintro ⟨h1, h2⟩
    unfold patternOf
    rw [h1, h2]

theorem length_eq_of_patternOf_eq {a b : Word} {i : Nat} (hia : i < a.length)
    (hib : i < b.length) (h : patternOf a i = patternOf b i) :
    a.length = b.length := by
  obtain ⟨h1, h2⟩ := (patternOf_eq_iff (le_of_lt hia) (le_of_lt hib)).mp h
  have := congrArg List.length h2
  simp only [List.length_drop] at this
  omega

/-! ## Pattern buckets and the builder graph -/

theorem mem_bucket_addToBucket (pm : List (Word × List Word)) (p w p' x : Word) :
    x ∈ (alookup (addToBucket pm p w) p').getD [] ↔
      x ∈ (alookup pm p').getD [] ∨ (p' = p ∧ x = w) := by
  induction pm with
  | nil =>
    by_cases hpp : p = p'
    · subst hpp
      simp [addToBucket, alookup]
    · simp only [addToBucket, alookup, if_neg hpp, Option.getD_none,
        List.not_mem_nil, false_iff, false_or]
      rintro ⟨h1, _⟩
      exact hpp h1.symm
  | cons pr rest ih =>
    obtain ⟨q, ws⟩ := pr
    by_cases hqp : q = p
    · subst hqp
      by_cases hqp' : q = p'
      · subst hqp'
        simp [addToBucket, alookup]
      · simp only [addToBucket, if_pos rfl, alookup, if_neg hqp']
        constructor
        · intro h
          exact Or.inl h
        · rintro (h | ⟨h1, h2⟩)
          · exact h
          · exact absurd h1.symm hqp'
    · by_cases hqp' : q = p'
      · subst hqp'
        simp only [addToBucket, if_neg hqp, alookup, if_pos rfl]
        constructor
        · intro h
          exact Or.inl h
        · rintro (h | ⟨h1, h2⟩)
          · exact h
          · exact absurd h1 hqp
      · simp only [addToBucket, if_neg hqp, alookup, if_neg hqp']
        exact ih

theorem mem_bucket_foldl_positions (w : Word) (l : List Nat) :
    ∀ (pm : List (Word × List Word)) (p x : Word),
      x ∈ (alookup (l.foldl (fun pm i => addToBucket pm (patternOf w i) w) pm) p).getD []
        ↔ x ∈ (alookup pm p).getD [] ∨ (x = w ∧ ∃ i ∈ l, patternOf w i = p) := by
  induction l with
  | nil => intro pm p x; simp
  | cons i l' ih =>
    intro pm p x
    rw [List.foldl_cons, ih, mem_bucket_addToBucket]
    constructor
    · rintro ((h | ⟨h1, h2⟩) | ⟨h1, i', hi', h2⟩)
      · exact Or.inl h
      · exact Or.inr ⟨h2, i, List.mem_cons_self _ _, h1.symm⟩
      · exact Or.inr ⟨h1, i', List.mem_cons_of_mem _ hi', h2⟩
    · rintro (h | ⟨h1, i', hi', h2⟩)
      · exact Or.inl (Or.inl h)
      · rcases List.mem_cons.mp hi' with rfl | hi''
        · exact Or.inl (Or.inr ⟨h2.symm, h1⟩)
        · exact Or.inr ⟨h1, i', hi'', h2⟩

theorem mem_bucket_patternBuckets_aux (ws : List Word) :
    ∀ (pm : List (Word × List Word)) (p x : Word),
      x ∈ (alookup (ws.foldl addWordPatterns pm) p).getD [] ↔
        x ∈ (alookup pm p).getD [] ∨ (x ∈ ws ∧ ∃ i < x.length, patternOf x i = p) := by
  induction ws with
  | nil => intro pm p x; simp
  | cons w ws' ih =>
    intro pm p x
    rw [List.foldl_cons, ih]
    unfold addWordPatterns
    rw [mem_bucket_foldl_positions]
    constructor
    · rintro ((h | ⟨rfl, i, hi, h2⟩) | ⟨h1, i, hi, h2⟩)
      · exact Or.inl h
      · exact Or.inr ⟨List.mem_cons_self _ _, i, List.mem_range.mp hi, h2⟩
      · exact Or.inr ⟨List.mem_cons_of_mem _ h1, i, hi, h2⟩
    · rintro (h | ⟨h1, i, hi, h2⟩)
      · exact Or.inl (Or.inl h)
      · rcases List.mem_cons.mp h1 with rfl | h1'
        · exact Or.inl (Or.inr ⟨rfl, i, List.mem_range.mpr hi, h2⟩)
        · exact Or.inr ⟨h1', i, hi, h2⟩

theorem mem_bucket_patternBuckets (ws : List Word) (p x : Word) :
    x ∈ (alookup (patternBuckets ws) p).getD [] ↔
      x ∈ ws ∧ ∃ i < x.length, patternOf x i = p := by
  unfold patternBuckets
  rw [mem_bucket_patternBuckets_aux]
  simp [alookup]

theorem mem_buildNeighbors (pm : List (Word × List Word)) (a x : Word) :
    x ∈ buildNeighbors pm a ↔
      x ≠ a ∧ ∃ i < a.length, x ∈ (alookup pm (patternOf a i)).getD [] := by
  unfold buildNeighbors
  rw [mem_dedupFirst, List.mem_filter]
  simp only [List.mem_flatMap, List.mem_range, decide_eq_true_eq]
  tauto

theorem alookup_map_pair (f : Word → List Word) (ws : List Word) (a : Word)
    (ha : a ∈ ws) : alookup (ws.map (fun w => (w, f w))) a = some (f a) := by
  induction ws with
  | nil => simp at ha
  | cons w ws' ih =>
    by_cases hw : w = a
    · subst hw
      simp [alookup]
    · rcases List.mem_cons.mp ha with rfl | ha'
      · exact absurd rfl hw
      · simp only [List.map_cons, alookup, if_neg hw]
        exact ih ha'

theorem nbrsOf_buildGraph (ws : List Word) (a : Word) (ha : a ∈ ws) :
    nbrsOf (buildGraph ws) a = buildNeighbors (patternBuckets ws) a := by
  unfold nbrsOf buildGraph
  rw [alookup_map_pair (fun w => buildNeighbors (patternBuckets ws) w) ws a ha]
  rfl

theorem nbrsOf_buildGraph_not_mem (ws : List Word) (a : Word) (ha : a ∉ ws) :
    nbrsOf (buildGraph ws) a = [] := by
  unfold nbrsOf buildGraph
  rw [alookup_eq_none_of_not_mem_keys]
  · rfl
  · simpa [List.map_map, Function.comp] using ha

theorem mem_ws_of_mem_nbrs {ws : List Word} {a x : Word}
    (h : x ∈ nbrsOf (buildGraph ws) a) : x ∈ ws := by
  by_cases ha : a ∈ ws
  · rw [nbrsOf_buildGraph ws a ha, mem_buildNeighbors] at h
    obtain ⟨_, i, _, hb⟩ := h
    exact ((mem_bucket_patternBuckets ws _ x).mp hb).1
  · rw [nbrsOf_buildGraph_not_mem ws a ha] at h
    simp at h

theorem eq_of_take_drop_get? {a b : Word} (i : Nat)
    (ht : a.take i = b.take i) (hd : a.drop (i + 1) = b.drop (i + 1))
    (hg : a.get? i = b.get? i) : a = b := by
  apply List.ext
  intro n
  rcases lt_trichotomy n i with h | h | h
  · rw [← List.get?_take h (l := a), ht, List.get?_take h]
  · subst h
    exact hg
  · have hn : n = (i + 1) + (n - i - 1) := by omega
    rw [hn, ← List.get?_drop, hd, List.get?_drop]

/-- Adjacency correctness of the builder graph: for `a` in the word list,
the neighbours of `a` are exactly the listed words at raw Hamming
distance 1 from `a`. -/
theorem mem_nbrs_buildGraph_iff (ws : List Word) (hu : ∀ w ∈ ws, '_' ∉ w)
    {a b : Word} (ha : a ∈ ws) :
    b ∈ nbrsOf (buildGraph ws) a ↔ b ∈ ws ∧ OneAway a b := by
  rw [nbrsOf_buildGraph ws a ha, mem_buildNeighbors]
  constructor
  · rintro ⟨hne, i, hia, hb⟩
    rw [mem_bucket_patternBuckets] at hb
    obtain ⟨hbws, j, hjb, hpat⟩ := hb
    have hij : j = i := patternOf_cross_pos (hu b hbws) (hu a ha)
      (le_of_lt hjb) (le_of_lt hia) hpat
    subst hij
    have hlen : b.length = a.length := length_eq_of_patternOf_eq hjb hia hpat
    obtain ⟨ht, hd⟩ := (patternOf_eq_iff (le_of_lt hjb) (le_of_lt hia)).mp hpat
    have hget : a.get? j ≠ b.get? j := by
      intro hg
      exact hne (eq_of_take_drop_get? j ht.symm hd.symm hg).symm
    exact ⟨hbws, oneAway_of_split hlen.symm j hia ht.symm hd.symm hget⟩
  · rintro ⟨hbws, hOA⟩
    obtain ⟨i, hia, hib, ht, hd, hne⟩ := oneAway_split hOA
    have hne' : b ≠ a := by
      rintro rfl
      exact hne rfl
    refine ⟨hne', i, hia, ?_⟩
    rw [mem_bucket_patternBuckets]
    exact ⟨hbws, i, hib,
      (patternOf_eq_iff (le_of_lt hib) (le_of_lt hia)).mpr ⟨ht.symm, hd.symm⟩⟩

theorem oneAway_symm {a b : Word} (h : OneAway a b) : OneAway b a :=
  ⟨h.1.symm, by rw [diffCountRaw_comm]; exact h.2⟩

theorem not_oneAway_self (a : Word) : ¬OneAway a a := by
  rintro ⟨_, h⟩
  rw [diffCountRaw_self] at h
  exact absurd h (by omega)

/-! ## Reachability as a reflexive-transitive closure -/

theorem reachG_refl (g : List (Word × List Word)) (a : Word) : ReachG g a a :=
  ⟨[a], rfl, rfl, List.chain'_singleton _⟩

theorem reachG_snoc {g : List (Word × List Word)} {a x n : Word}
    (h : ReachG g a x) (hn : n ∈ nbrsOf g x) : ReachG g a n := by
  obtain ⟨p, hh, hl, hc⟩ := h
  refine ⟨p ++ [n], head?_append_left _ hh, List.getLast?_concat _, ?_⟩
  rw [List.chain'_append]
  refine ⟨hc, List.chain'_singleton _, ?_⟩
  intro u hu v hv
  rw [hl] at hu
  simp only [Option.mem_def, Option.some.injEq] at hu
  simp only [List.head?_cons, Option.mem_def, Option.some.injEq] at hv
  subst hu
  subst hv
  exact hn

theorem reachG_iff_rtg (g : List (Word × List Word)) (a b : Word) :
    ReachG g a b ↔ Relation.ReflTransGen (fun x y => y ∈ nbrsOf g x) a b := by
  constructor
  · rintro ⟨p, hh, hl, hc⟩
    induction p generalizing a with
    | nil => simp at hh
    | cons x t ih =>
      have hax : a = x := by
        simp only [List.head?_cons, Option.some.injEq] at hh
        exact hh.symm
      subst hax
      cases t with
      | nil =>
        have hab : a = b := by
          simp only [List.getLast?_singleton, Option.some.injEq] at hl
          exact hl
        subst hab
        exact Relation.ReflTransGen.refl
      | cons y t' =>
        rw [List.chain'_cons] at hc
        have hstep : y ∈ nbrsOf g a := hc.1
        have htail := ih (a := y) rfl (by
          rw [← hl]
          exact List.getLast?_cons_cons.symm) hc.2
        exact Relation.ReflTransGen.head hstep htail
  · intro h
    induction h with
    | refl => exact reachG_refl g a
    | tail hab hbc ih => exact reachG_snoc ih hbc

theorem reachG_trans {g : List (Word × List Word)} {a b c : Word}
    (h1 : ReachG g a b) (h2 : ReachG g b c) : ReachG g a c := by
  rw [reachG_iff_rtg] at h1 h2 ⊢
  exact h1.trans h2

/-- Every neighbour-list value of the builder graph is a listed word. -/
theorem values_buildGraph_sub (ws : List Word) :
    ∀ x ∈ (buildGraph ws).flatMap (fun pr => pr.2), x ∈ ws := by
  intro x hx
  rw [List.mem_flatMap] at hx
  obtain ⟨pr, hpr, hval⟩ := hx
  unfold buildGraph at hpr
  rw [List.mem_map] at hpr
  obtain ⟨w, _, rfl⟩ := hpr
  rw [mem_buildNeighbors] at hval
  obtain ⟨_, i, _, hb⟩ := hval
  exact ((mem_bucket_patternBuckets ws _ x).mp hb).1

/-- Adjacency of the builder graph is symmetric. -/
theorem nbrs_buildGraph_symm (ws : List Word) (hu : ∀ w ∈ ws, '_' ∉ w)
    {x y : Word} (h : y ∈ nbrsOf (buildGraph ws) x) :
    x ∈ nbrsOf (buildGraph ws) y := by
  by_cases hx : x ∈ ws
  · obtain ⟨hyws, hOA⟩ := (mem_nbrs_buildGraph_iff ws hu hx).mp h
    exact (mem_nbrs_buildGraph_iff ws hu hyws).mpr ⟨hx, oneAway_symm hOA⟩
  · rw [nbrsOf_buildGraph_not_mem ws x hx] at h
    simp at h

theorem reachG_buildGraph_symm (ws : List Word) (hu : ∀ w ∈ ws, '_' ∉ w)
    {a b : Word} (h : ReachG (buildGraph ws) a b) : ReachG (buildGraph ws) b a := by
  rw [reachG_iff_rtg] at h ⊢
  induction h with
  | refl => exact Relation.ReflTransGen.refl
  | tail hab hbc ih =>
    exact Relation.ReflTransGen.head (nbrs_buildGraph_symm ws hu hbc) ih

/-- A neighbour-closed set absorbs reachability. -/
theorem reachG_closed {g : List (Word × List Word)} {V : List Word}
    (hcl : ∀ x ∈ V, ∀ n ∈ nbrsOf g x, n ∈ V) {a b : Word} (ha : a ∈ V)
    (h : ReachG g a b) : b ∈ V := by
  rw [reachG_iff_rtg] at h
  induction h with
  | refl => exact ha
  | tail hab hbc ih => exact hcl _ ih _ hbc

/-! ## The connectivity-group BFS -/

theorem enqueueNew_perm : ∀ (ns visited : List Word),
    ((enqueueNew visited ns).1).Perm ((enqueueNew visited ns).2 ++ visited) := by
  intro ns
  induction ns with
  | nil => intro visited; simp [enqueueNew]
  | cons n rest ih =>
    intro visited
    by_cases h : n ∈ visited
    · simpa [enqueueNew, h] using ih visited
    · have heq : enqueueNew visited (n :: rest) =
          ((enqueueNew (n :: visited) rest).1, n :: (enqueueNew (n :: visited) rest).2) := by
        rw [enqueueNew, if_neg h]
      rw [heq]
      have h1 := ih (n :: visited)
      refine h1.trans ?_
      have h2 : ((enqueueNew (n :: visited) rest).2 ++ n :: visited).Perm
          (n :: ((enqueueNew (n :: visited) rest).2 ++ visited)) :=
        List.perm_middle
      exact h2

theorem enqueueNew_mem_new : ∀ (ns visited : List Word),
    ∀ x ∈ (enqueueNew visited ns).2, x ∈ ns ∧ x ∉ visited := by
  intro ns
  induction ns with
  | nil => intro visited x hx; simp [enqueueNew] at hx
  | cons n rest ih =>
    intro visited x hx
    by_cases h : n ∈ visited
    · rw [enqueueNew, if_pos h] at hx
      obtain ⟨h1, h2⟩ := ih visited x hx
      exact ⟨List.mem_cons_of_mem _ h1, h2⟩
    · rw [enqueueNew, if_neg h] at hx
      rcases List.mem_cons.mp hx with rfl | hx'
      · exact ⟨List.mem_cons_self _ _, h⟩
      · obtain ⟨h1, h2⟩ := ih (n :: visited) x hx'
        refine ⟨List.mem_cons_of_mem _ h1, fun hv => h2 (List.mem_cons_of_mem _ hv)⟩

theorem enqueueNew_covers : ∀ (ns visited : List Word),
    ∀ n ∈ ns, n ∈ (enqueueNew visited ns).1 := by
  intro ns
  induction ns with
  | nil => intro visited n hn; simp at hn
  | cons m rest ih =>
    intro visited n hn
    have hmono : ∀ (v : List Word), ∀ x ∈ v, x ∈ (enqueueNew v rest).1 := by
      intro v x hx
      have := (enqueueNew_perm rest v).mem_iff (a := x)
      rw [this, List.mem_append]
      exact Or.inr hx
    by_cases h : m ∈ visited
    · rw [enqueueNew, if_pos h]
      rcases List.mem_cons.mp hn with rfl | hn'
      · exact hmono visited n h
      · exact ih visited n hn'
    · rw [enqueueNew, if_neg h]
      rcases List.mem_cons.mp hn with rfl | hn'
      · exact hmono (n :: visited) n (List.mem_cons_self _ _)
      · exact ih (m :: visited) n hn'

theorem enqueueNew_mono (ns visited : List Word) :
    ∀ x ∈ visited, x ∈ (enqueueNew visited ns).1 := by
  intro x hx
  have := (enqueueNew_perm ns visited).mem_iff (a := x)
  rw [this, List.mem_append]
  exact Or.inr hx

theorem enqueueNew_nodup : ∀ (ns visited : List Word), visited.Nodup →
    (enqueueNew visited ns).1.Nodup := by
  intro ns
  induction ns with
  | nil => intro visited h; simpa [enqueueNew] using h
  | cons n rest ih =>
    intro visited h
    by_cases hn : n ∈ visited
    · rw [enqueueNew, if_pos hn]
      exact ih visited h
    · rw [enqueueNew, if_neg hn]
      exact ih (n :: visited) (List.nodup_cons.mpr ⟨hn, h⟩)

theorem enqueueNew_measure (S : List Word) : ∀ (ns visited : List Word),
    (∀ n ∈ ns, n ∈ S) →
    (S.filter (fun y => decide (y ∉ (enqueueNew visited ns).1))).length +
      (enqueueNew visited ns).2.length ≤
      (S.filter (fun y => decide (y ∉ visited))).length := by
  intro ns
  induction ns with
  | nil => intro visited _; simp [enqueueNew]
  | cons n rest ih =>
    intro visited hS
    by_cases h : n ∈ visited
    · rw [enqueueNew, if_pos h]
      exact ih visited (fun m hm => hS m (List.mem_cons_of_mem _ hm))
    · have heq : enqueueNew visited (n :: rest) =
          ((enqueueNew (n :: visited) rest).1, n :: (enqueueNew (n :: visited) rest).2) := by
        rw [enqueueNew, if_neg h]
      rw [heq]
      have hih := ih (n :: visited) (fun m hm => hS m (List.mem_cons_of_mem _ hm))
      have hshrink := pool_shrink (hS n (List.mem_cons_self _ _)) h
      simp only [List.length_cons]
      omega

/-- Multiset bookkeeping for the group BFS step. -/
theorem perm_shuffle {α : Type} [DecidableEq α] (A B C D E : List α) :
    (A ++ (B ++ (C ++ D) ++ E)).Perm ((B ++ C) ++ (D ++ A) ++ E) := by
  apply List.perm_iff_count.mpr
  intro a
  simp only [List.count_append]
  omega

/-- Group-BFS master lemma: the loop moves exactly the newly visited words
into the group, preserves nodup, closes the visited set, keeps the group
inside the reachable region, and stays within the graph's value domain. -/
theorem groupBFS_spec (g : List (Word × List Word)) :
    ∀ (fuel : Nat) (visited queue grp V0 : List Word),
      visited.Perm (grp ++ queue ++ V0) →
      visited.Nodup →
      queue.length + ((g.flatMap (fun pr => pr.2)).filter
        (fun y => decide (y ∉ visited))).length + 1 ≤ fuel →
      (groupBFS g fuel visited queue grp).1.Perm
        ((groupBFS g fuel visited queue grp).2 ++ V0) ∧
      (groupBFS g fuel visited queue grp).1.Nodup ∧
      (∀ x ∈ visited, x ∈ (groupBFS g fuel visited queue grp).1) ∧
      ((∀ x ∈ visited, x ∉ queue → ∀ n ∈ nbrsOf g x, n ∈ visited) →
        ∀ x ∈ (groupBFS g fuel visited queue grp).1, ∀ n ∈ nbrsOf g x,
          n ∈ (groupBFS g fuel visited queue grp).1) ∧
      (∀ (R : Word → Prop), (∀ x y, R x → y ∈ nbrsOf g x → R y) →
        (∀ x ∈ queue, R x) → (∀ x ∈ grp, R x) →
        ∀ x ∈ (groupBFS g fuel visited queue grp).2, R x) ∧
      (∀ x ∈ grp, x ∈ (groupBFS g fuel visited queue grp).2) ∧
      (∀ x ∈ (groupBFS g fuel visited queue grp).2,
        x ∈ grp ∨ x ∈ queue ∨ x ∈ g.flatMap (fun pr => pr.2)) := by
  intro fuel
  induction fuel with
  | zero =>
    intro visited queue grp V0 _ _ hfuel
    exact absurd hfuel (by omega)
  | succ fuel ih =>
    intro visited queue grp V0 hperm hnd hfuel
    match queue with
    | [] =>
      have heq : groupBFS g (fuel + 1) visited [] grp = (visited, grp) := by
        rw [groupBFS]
      rw [heq]
      have hperm' : visited.Perm (grp ++ V0) := by simpa using hperm
      refine ⟨hperm', hnd, fun x hx => hx, ?_, ?_, fun x hx => hx, fun x hx => Or.inl hx⟩
      · intro Hc x hx n hn
        exact Hc x hx (List.not_mem_nil x) n hn
      · intro R _ _ hRg x hx
        exact hRg x hx
    | cur :: rest =>
      have heq : groupBFS g (fuel + 1) visited (cur :: rest) grp =
          groupBFS g fuel (enqueueNew visited (nbrsOf g cur)).1
            (rest ++ (enqueueNew visited (nbrsOf g cur)).2) (grp ++ [cur]) := by
        rw [groupBFS]
      have hperm1 : visited.Perm (grp ++ ([cur] ++ rest) ++ V0) := by
        simpa using hperm
      have hv' : (enqueueNew visited (nbrsOf g cur)).1.Perm
          ((grp ++ [cur]) ++ (rest ++ (enqueueNew visited (nbrsOf g cur)).2) ++ V0) := by
        refine (enqueueNew_perm _ _).trans ?_
        refine (hperm1.append_left (enqueueNew visited (nbrsOf g cur)).2).trans ?_
        exact perm_shuffle _ grp [cur] rest V0
      have hnd' : (enqueueNew visited (nbrsOf g cur)).1.Nodup :=
        enqueueNew_nodup _ _ hnd
      have hmeas := enqueueNew_measure (g.flatMap (fun pr => pr.2)) (nbrsOf g cur)
        visited (fun n hn => mem_nbrsOf_mem_flatMap hn)
      have hfuel' : (rest ++ (enqueueNew visited (nbrsOf g cur)).2).length +
          ((g.flatMap (fun pr => pr.2)).filter
            (fun y => decide (y ∉ (enqueueNew visited (nbrsOf g cur)).1))).length + 1
          ≤ fuel := by
        simp only [List.length_append, List.length_cons] at hfuel ⊢
        omega
      obtain ⟨P1, P2, P3, P4, P5, P6, P7⟩ :=
        ih (enqueueNew visited (nbrsOf g cur)).1
          (rest ++ (enqueueNew visited (nbrsOf g cur)).2) (grp ++ [cur]) V0
          hv' hnd' hfuel'
      rw [heq]
      refine ⟨P1, P2, ?_, ?_, ?_, ?_, ?_⟩
      · intro x hx
        exact P3 x (enqueueNew_mono _ _ x hx)
      · intro Hc
        apply P4
        intro x hx hxq n hn
        rcases List.mem_append.mp
            (((enqueueNew_perm (nbrsOf g cur) visited).mem_iff).mp hx) with hx2 | hx2
        · exact absurd (List.mem_append_right rest hx2) hxq
        · by_cases hxc : x = cur
          · subst hxc
            exact enqueueNew_covers _ _ n hn
          · have hxnq : x ∉ cur :: rest := by
              intro hmem
              rcases List.mem_cons.mp hmem with h' | h'
              · exact hxc h'
              · exact hxq (List.mem_append_left _ h')
            exact enqueueNew_mono _ _ n (Hc x hx2 hxnq n hn)
      · intro R hRcl hRq hRg
        apply P5 R hRcl
        · intro x hx
          rcases List.mem_append.mp hx with h' | h'
          · exact hRq x (List.mem_cons_of_mem _ h')
          · have := (enqueueNew_mem_new _ _ x h').1
            exact hRcl cur x (hRq cur (List.mem_cons_self _ _)) this
        · intro x hx
          rcases List.mem_append.mp hx with h' | h'
          · exact hRg x h'
          · rw [List.mem_singleton.mp h']
            exact hRq cur (List.mem_cons_self _ _)
      · intro x hx
        exact P6 x (List.mem_append_left _ hx)
      · intro x hx
        rcases P7 x hx with h' | h' | h'
        · rcases List.mem_append.mp h' with h2 | h2
          · exact Or.inl h2
          · exact Or.inr (Or.inl (by rw [List.mem_singleton.mp h2]; exact List.mem_cons_self _ _))
        · rcases List.mem_append.mp h' with h2 | h2
          · exact Or.inr (Or.inl (List.mem_cons_of_mem _ h2))
          · exact Or.inr (Or.inr (mem_nbrsOf_mem_flatMap (enqueueNew_mem_new _ _ x h2).1))
        · exact Or.inr (Or.inr h')

/-- Outer partition-loop lemma: scanning the word list yields groups whose
concatenation is duplicate-free, covers every scanned word, stays inside
the scanned words and graph values, and each produced group carries the
`GroupPackage` reachability guarantee. -/
theorem buildGroupsAux_spec (g : List (Word × List Word)) :
    ∀ (ws visited : List Word) (gid : Nat) (acc : List (Nat × List Word)),
      visited.Nodup →
      visited.Perm (acc.flatMap (fun pr => pr.2)) →
      (∀ x ∈ visited, ∀ n ∈ nbrsOf g x, n ∈ visited) →
      ∃ v' : List Word, v'.Nodup ∧
        v'.Perm ((buildGroupsAux g ws visited gid acc).flatMap (fun pr => pr.2)) ∧
        (∀ x ∈ visited, x ∈ v') ∧
        (∀ w ∈ ws, w ∈ v') ∧
        (∀ x ∈ v', x ∈ visited ∨ x ∈ ws ∨ x ∈ g.flatMap (fun pr => pr.2)) ∧
        (∀ x ∈ v', ∀ n ∈ nbrsOf g x, n ∈ v') ∧
        (∀ pr ∈ buildGroupsAux g ws visited gid acc, pr ∈ acc ∨ GroupPackage g pr.2) := by
  intro ws
  induction ws with
  | nil =>
    intro visited gid acc hnd hperm hclosed
    refine ⟨visited, hnd, ?_, fun x hx => hx, ?_, ?_, hclosed, ?_⟩
    · simpa [buildGroupsAux] using hperm
    · intro x hx
      simp at hx
    · intro x hx
      exact Or.inl hx
    · intro pr hpr
      simp only [buildGroupsAux] at hpr
      exact Or.inl hpr
  | cons w ws' ih =>
    intro visited gid acc hnd hperm hclosed
    by_cases hw : w ∈ visited
    · have heq : buildGroupsAux g (w :: ws') visited gid acc =
          buildGroupsAux g ws' visited gid acc := by
        simp only [buildGroupsAux, if_pos hw]
      obtain ⟨v', h1, h2, h3, h4, h5, h6, h7⟩ := ih visited gid acc hnd hperm hclosed
      rw [heq]
      refine ⟨v', h1, h2, h3, ?_, ?_, h6, h7⟩
      · intro x hx
        rcases List.mem_cons.mp hx with rfl | hx'
        · exact h3 x hw
        · exact h4 x hx'
      · intro x hx
        rcases h5 x hx with h' | h' | h'
        · exact Or.inl h'
        · exact Or.inr (Or.inl (List.mem_cons_of_mem _ h'))
        · exact Or.inr (Or.inr h')
    · have hperm0 : (w :: visited).Perm ([] ++ [w] ++ visited) := by simp
      have hnd0 : (w :: visited).Nodup := List.nodup_cons.mpr ⟨hw, hnd⟩
      have hfuel0 : [w].length + ((g.flatMap (fun pr => pr.2)).filter
          (fun y => decide (y ∉ w :: visited))).length + 1 ≤ groupFuel g := by
        have := List.length_filter_le (fun y => decide (y ∉ w :: visited))
          (g.flatMap (fun pr => pr.2))
        simp only [groupFuel, List.length_cons, List.length_nil]
        omega
      obtain ⟨Q1, Q2, Q3, Q4, Q5, Q6, Q7⟩ :=
        groupBFS_spec g (groupFuel g) (w :: visited) [w] [] visited hperm0 hnd0 hfuel0
      have hclos1 : ∀ x ∈ (groupBFS g (groupFuel g) (w :: visited) [w] []).1,
          ∀ n ∈ nbrsOf g x, n ∈ (groupBFS g (groupFuel g) (w :: visited) [w] []).1 := by
        apply Q4
        intro x hx hxq n hn
        rcases List.mem_cons.mp hx with rfl | hx'
        · exact absurd (List.mem_singleton.mpr rfl) hxq
        · exact List.mem_cons_of_mem _ (hclosed x hx' n hn)
      have hwv1 : w ∈ (groupBFS g (groupFuel g) (w :: visited) [w] []).1 :=
        Q3 w (List.mem_cons_self _ _)
      have hwgrp : w ∈ (groupBFS g (groupFuel g) (w :: visited) [w] []).2 := by
        rcases List.mem_append.mp (Q1.mem_iff.mp hwv1) with h' | h'
        · exact h'
        · exact absurd h' hw
      have hne : ¬((groupBFS g (groupFuel g) (w :: visited) [w] []).2 = []) := by
        intro h
        rw [h] at hwgrp
        simp at hwgrp
      have heq : buildGroupsAux g (w :: ws') visited gid acc =
          buildGroupsAux g ws' (groupBFS g (groupFuel g) (w :: visited) [w] []).1
            (gid + 1) (acc ++ [(gid, (groupBFS g (groupFuel g) (w :: visited) [w] []).2)]) := by
        simp only [buildGroupsAux, if_neg hw, if_neg hne]
      have hdisj : ∀ x ∈ (groupBFS g (groupFuel g) (w :: visited) [w] []).2,
          x ∉ visited := by
        have hndapp := (Q1.nodup_iff).mp Q2
        obtain ⟨_, _, hd⟩ := List.nodup_append.mp hndapp
        intro x hx hxv
        exact hd hx hxv
      have hpkg : GroupPackage g (groupBFS g (groupFuel g) (w :: visited) [w] []).2 := by
        refine ⟨w, visited, hwgrp, hw, hclosed, ?_, ?_, hdisj⟩
        · apply Q5 (ReachG g w) (fun x y hx hy => reachG_snoc hx hy)
          · intro x hx
            rw [List.mem_singleton.mp hx]
            exact reachG_refl g w
          · intro x hx
            simp at hx
        · intro x hx
          have hx1 := reachG_closed hclos1 hwv1 hx
          exact List.mem_append.mp (Q1.mem_iff.mp hx1)
      have hperm1 : (groupBFS g (groupFuel g) (w :: visited) [w] []).1.Perm
          ((acc ++ [(gid, (groupBFS g (groupFuel g) (w :: visited) [w] []).2)]).flatMap
            (fun pr => pr.2)) := by
        refine Q1.trans ?_
        refine (hperm.append_left (groupBFS g (groupFuel g) (w :: visited) [w] []).2).trans ?_
        rw [List.flatMap_append]
        simp only [List.flatMap_cons, List.flatMap_nil, List.append_nil]
        exact List.perm_append_comm
      obtain ⟨v', h1, h2, h3, h4, h5, h6, h7⟩ := ih
        (groupBFS g (groupFuel g) (w :: visited) [w] []).1 (gid + 1)
        (acc ++ [(gid, (groupBFS g (groupFuel g) (w :: visited) [w] []).2)])
        Q2 hperm1 hclos1
      rw [heq]
      refine ⟨v', h1, h2, ?_, ?_, ?_, h6, ?_⟩
      · intro x hx
        exact h3 x (Q3 x (List.mem_cons_of_mem _ hx))
      · intro x hx
        rcases List.mem_cons.mp hx with rfl | hx'
        · exact h3 x hwv1
        · exact h4 x hx'
      · intro x hx
        rcases h5 x hx with h' | h' | h'
        · rcases List.mem_append.mp (Q1.mem_iff.mp h') with h2' | h2'
          · rcases Q7 x h2' with h3' | h3' | h3'
            · simp at h3'
            · exact Or.inr (Or.inl (by
                rw [List.mem_singleton.mp h3']
                exact List.mem_cons_self _ _))
            · exact Or.inr (Or.inr h3')
          · exact Or.inl h2'
        · exact Or.inr (Or.inl (List.mem_cons_of_mem _ h'))
        · exact Or.inr (Or.inr h')
      · intro pr hpr
        rcases h7 pr hpr with h' | h'
        · rcases List.mem_append.mp h' with h2' | h2'
          · exact Or.inl h2'
          · rw [List.mem_singleton.mp h2']
            exact Or.inr hpkg
        · exact Or.inr h'

theorem buildGroups_spec (g : List (Word × List Word)) (ws : List Word) :
    ∃ v' : List Word, v'.Nodup ∧
      v'.Perm ((buildGroups g ws).flatMap (fun pr => pr.2)) ∧
      (∀ w ∈ ws, w ∈ v') ∧
      (∀ x ∈ v', x ∈ ws ∨ x ∈ g.flatMap (fun pr => pr.2)) ∧
      (∀ pr ∈ buildGroups g ws, GroupPackage g pr.2) := by
  obtain ⟨v', h1, h2, h3, h4, h5, h6, h7⟩ := buildGroupsAux_spec g ws [] 0 []
    List.nodup_nil (by simp) (by simp)
  refine ⟨v', h1, h2, h4, ?_, ?_⟩
  · intro x hx
    rcases h5 x hx with h | h | h
    · simp at h
    · exact Or.inl h
    · exact Or.inr h
  · intro pr hpr
    rcases h7 pr hpr with h | h
    · simp at h
    · exact h

theorem countP_eq_one_of_nodup_flatMap (groups : List (Nat × List Word))
    (hnd : (groups.flatMap (fun pr => pr.2)).Nodup) (x : Word)
    (hx : x ∈ groups.flatMap (fun pr => pr.2)) :
    groups.countP (fun pr => decide (x ∈ pr.2)) = 1 := by
  induction groups with
  | nil => simp at hx
  | cons pr rest ih =>
    simp only [List.flatMap_cons] at hx hnd
    rw [List.nodup_append] at hnd
    obtain ⟨hnd1, hnd2, hdisj⟩ := hnd
    rw [List.countP_cons]
    by_cases hmem : x ∈ pr.2
    · have hrest : rest.countP (fun pr => decide (x ∈ pr.2)) = 0 := by
        rw [List.countP_eq_zero]
        intro pr' hpr'
        simp only [decide_eq_true_eq]
        intro hx'
        exact hdisj hmem (List.mem_flatMap.mpr ⟨pr', hpr', hx'⟩)
      simp [hrest, hmem]
    · have hxr : x ∈ rest.flatMap (fun pr => pr.2) := by
        rcases List.mem_append.mp hx with h | h
        · exact absurd h hmem
        · exact h
      have := ih hnd2 hxr
      simp [this, hmem]

theorem no_underscore_of_AZ {ws : List Word}
    (hAZ : ∀ w ∈ ws, ∀ c ∈ w, c ∈ LETTERS) : ∀ w ∈ ws, '_' ∉ w := by
  intro w hw hu
  have h := hAZ w hw '_' hu
  exact absurd h (by decide)

/-- C4: in the graph the offline builder produces from a duplicate-free
set of equal-length (uppercase A–Z) words, `b ∈ neighbors(a)` iff `a` and
`b` are listed words differing in exactly one letter position;
consequently the adjacency mapping is symmetric and irreflexive. -/
theorem claim4_adjacency_correct (ws : List Word) (L : Nat)
    (hlen : ∀ w ∈ ws, w.length = L) (hnd : ws.Nodup)
    (hAZ : ∀ w ∈ ws, ∀ c ∈ w, c ∈ LETTERS) :
    (∀ a ∈ ws, ∀ b, b ∈ nbrsOf (buildGraph ws) a ↔ b ∈ ws ∧ OneAway a b) ∧
    (∀ a ∈ ws, ∀ b ∈ ws,
      (b ∈ nbrsOf (buildGraph ws) a ↔ a ∈ nbrsOf (buildGraph ws) b)) ∧
    (∀ a ∈ ws, a ∉ nbrsOf (buildGraph ws) a) := by
  have hu := no_underscore_of_AZ hAZ
  refine ⟨?_, ?_, ?_⟩
  · intro a ha b
    exact mem_nbrs_buildGraph_iff ws hu ha
  · intro a ha b hb
    rw [mem_nbrs_buildGraph_iff ws hu ha, mem_nbrs_buildGraph_iff ws hu hb]
    constructor
    · rintro ⟨_, hOA⟩
      exact ⟨ha, oneAway_symm hOA⟩
    · rintro ⟨_, hOA⟩
      exact ⟨hb, oneAway_symm hOA⟩
  · intro a ha hmem
    exact not_oneAway_self a ((mem_nbrs_buildGraph_iff ws hu ha).mp hmem).2

theorem claim4_witness :
    (['A', 'C'] ∈ nbrsOf (buildGraph W2) ['A', 'B'] ↔
      ['A', 'C'] ∈ W2 ∧ OneAway ['A', 'B'] ['A', 'C']) ∧
    (['A', 'B'] ∉ nbrsOf (buildGraph W2) ['A', 'B']) := by
  have h := claim4_adjacency_correct W2 2 (by decide) (by decide) (by decide)
  exact ⟨h.1 ['A', 'B'] (by decide) ['A', 'C'], h.2.2 ['A', 'B'] (by decide)⟩

/-- C5: for every input word list, the groups the offline partitioner
produces over the builder graph partition the list: each word appears in
exactly one group and the union of the groups' members equals the input
word set. -/
theorem claim5_partition (ws : List Word) :
    (∀ w ∈ ws, (buildGroups (buildGraph ws) ws).countP
      (fun pr => decide (w ∈ pr.2)) = 1) ∧
    (∀ x, (∃ pr ∈ buildGroups (buildGraph ws) ws, x ∈ pr.2) ↔ x ∈ ws) := by
  obtain ⟨v', hnd, hperm, hcover, hprov, hpkg⟩ := buildGroups_spec (buildGraph ws) ws
  have hndf : ((buildGroups (buildGraph ws) ws).flatMap (fun pr => pr.2)).Nodup :=
    (hperm.nodup_iff).mp hnd
  constructor
  · intro w hw
    exact countP_eq_one_of_nodup_flatMap _ hndf w
      (hperm.mem_iff.mp (hcover w hw))
  · intro x
    constructor
    · rintro ⟨pr, hpr, hx⟩
      have hxf : x ∈ (buildGroups (buildGraph ws) ws).flatMap (fun pr => pr.2) :=
        List.mem_flatMap.mpr ⟨pr, hpr, hx⟩
      rcases hprov x (hperm.mem_iff.mpr hxf) with h | h
      · exact h
      · exact values_buildGraph_sub ws x h
    · intro hx
      have hxf : x ∈ (buildGroups (buildGraph ws) ws).flatMap (fun pr => pr.2) :=
        hperm.mem_iff.mp (hcover x hx)
      obtain ⟨pr, hpr, hx'⟩ := List.mem_flatMap.mp hxf
      exact ⟨pr, hpr, hx'⟩

theorem claim5_witness :
    (buildGroups (buildGraph W2) W2).countP
      (fun pr => decide (['A', 'B'] ∈ pr.2)) = 1 :=
  (claim5_partition W2).1 ['A', 'B'] (by decide)

/-- C6: for words of one length class (uppercase A–Z), two listed words
lie in the same produced group iff a finite path connects them in the
builder's adjacency mapping. -/
theorem claim6_reachability_equiv (ws : List Word)
    (hAZ : ∀ w ∈ ws, ∀ c ∈ w, c ∈ LETTERS) {a b : Word}
    (ha : a ∈ ws) (hb : b ∈ ws) :
    (∃ pr ∈ buildGroups (buildGraph ws) ws, a ∈ pr.2 ∧ b ∈ pr.2) ↔
      ReachG (buildGraph ws) a b := by
  have hu := no_underscore_of_AZ hAZ
  obtain ⟨v', hnd, hperm, hcover, hprov, hpkg⟩ := buildGroups_spec (buildGraph ws) ws
  constructor
  · rintro ⟨pr, hpr, hap, hbp⟩
    obtain ⟨s, Vi, hs, hsVi, hVic, hreach, hcomp, hdisj⟩ := hpkg pr hpr
    exact reachG_trans (reachG_buildGraph_symm ws hu (hreach a hap)) (hreach b hbp)
  · intro hr
    have haf : a ∈ (buildGroups (buildGraph ws) ws).flatMap (fun pr => pr.2) :=
      hperm.mem_iff.mp (hcover a ha)
    obtain ⟨pr, hpr, hap⟩ := List.mem_flatMap.mp haf
    obtain ⟨s, Vi, hs, hsVi, hVic, hreach, hcomp, hdisj⟩ := hpkg pr hpr
    have hsb : ReachG (buildGraph ws) s b := reachG_trans (hreach a hap) hr
    rcases hcomp b hsb with hbp | hbVi
    · exact ⟨pr, hpr, hap, hbp⟩
    · exfalso
      have hbs : ReachG (buildGraph ws) b s := reachG_buildGraph_symm ws hu hsb
      exact hsVi (reachG_closed hVic hbVi hbs)

theorem claim6_witness :
    (∃ pr ∈ buildGroups (buildGraph W2) W2, ['A', 'B'] ∈ pr.2 ∧ ['A', 'C'] ∈ pr.2) ↔
      ReachG (buildGraph W2) ['A', 'B'] ['A', 'C'] :=
  claim6_reachability_equiv W2 (by decide) (by decide) (by decide)

/-! ## Uppercase A–Z words are fixed by `toUpperCase` and `trim` -/

theorem upperW_id_of_AZ {w : Word} (h : ∀ c ∈ w, c ∈ LETTERS) : upperW w = w := by
  have hLet : ∀ c ∈ LETTERS, c.toUpper = c := by decide
  unfold upperW
  induction w with
  | nil => rfl
  | cons c t ih =>
    rw [List.map_cons, hLet c (h c (List.mem_cons_self _ _)),
      ih (fun c' hc' => h c' (List.mem_cons_of_mem _ hc'))]

theorem dropWhile_eq_self_of_none {p : Char → Bool} {l : List Char}
    (h : ∀ c ∈ l, p c = false) : l.dropWhile p = l := by
  cases l with
  | nil => rfl
  | cons c t =>
    rw [List.dropWhile_cons, h c (List.mem_cons_self _ _)]
    simp

theorem trimW_id_of_AZ {w : Word} (h : ∀ c ∈ w, c ∈ LETTERS) : trimW w = w := by
  have hws : ∀ c ∈ LETTERS, c.isWhitespace = false := by decide
  unfold trimW
  rw [dropWhile_eq_self_of_none (fun c hc => hws c (h c hc))]
  rw [dropWhile_eq_self_of_none (fun c hc => hws c (h c (List.mem_reverse.mp hc)))]
  exact List.reverse_reverse w

theorem alookup_buildGraph_ne_none {ws : List Word} {w : Word} (hw : w ∈ ws) :
    alookup (buildGraph ws) w ≠ none := by
  unfold buildGraph
  rw [alookup_map_pair (fun x => buildNeighbors (patternBuckets ws) x) ws w hw]
  simp

/-- `findShortestPath` on the identity query returns the single-element
path whenever the word is a graph key. -/
theorem findShortestPath_identity {g : List (Word × List Word)} {w : Word}
    (hw : alookup g (upperW w) ≠ none) :
    findShortestPath g w w = some [upperW w] := by
  unfold findShortestPath
  rw [if_neg (by push_neg; exact ⟨hw, hw⟩), if_pos rfl]

/-- C2: for start and end words present in the artifact's graph, if any
path exists between them in the adjacency mapping, `findShortestPath`
returns a path with the minimum possible number of words — its length is
the true graph distance plus one. -/
theorem claim2_shortest_path_minimal (g : List (Word × List Word))
    (startWord endWord : Word)
    (hs : alookup g (upperW startWord) ≠ none)
    (he : alookup g (upperW endWord) ≠ none)
    (hreach : ReachG g (upperW startWord) (upperW endWord)) :
    ∃ p n, findShortestPath g startWord endWord = some p ∧
      IsGraphDist g (upperW startWord) (upperW endWord) n ∧ p.length = n + 1 :=
  findShortestPath_minimal g startWord endWord hs he hreach

theorem claim2_witness :
    ∃ p n, findShortestPath (buildGraph W2) ['A', 'B'] ['A', 'C'] = some p ∧
      IsGraphDist (buildGraph W2) (upperW ['A', 'B']) (upperW ['A', 'C']) n ∧
      p.length = n + 1 :=
  claim2_shortest_path_minimal (buildGraph W2) ['A', 'B'] ['A', 'C']
    (by decide) (by decide)
    ⟨[['A', 'B'], ['A', 'C']], by decide, by decide,
      List.chain'_pair.mpr (by decide)⟩

/-- Every builder-graph edge joins words one letter apart. -/
theorem nbrs_buildGraph_oneAway (ws : List Word) (hu : ∀ w ∈ ws, '_' ∉ w) :
    ∀ a b : Word, b ∈ nbrsOf (buildGraph ws) a → OneAway a b := by
  intro a b h
  by_cases ha : a ∈ ws
  · exact ((mem_nbrs_buildGraph_iff ws hu ha).mp h).2
  · rw [nbrsOf_buildGraph_not_mem ws a ha] at h
    simp at h

/-- C3: every path returned by the resolver over a built artifact starts
with the (uppercased) requested start word, ends with the requested end
word, and every consecutive pair is adjacent in the adjacency mapping —
hence differs in exactly one letter; no non-adjacent pair ever occurs. -/
theorem claim3_path_valid (ws : List Word) (L : Nat)
    (hlen : ∀ w ∈ ws, w.length = L) (hnd : ws.Nodup)
    (hAZ : ∀ w ∈ ws, ∀ c ∈ w, c ∈ LETTERS)
    (startWord endWord : Word) (p : List Word)
    (hp : findShortestPath (buildGraph ws) startWord endWord = some p) :
    p.head? = some (upperW startWord) ∧ p.getLast? = some (upperW endWord) ∧
    List.Chain' (fun x y => y ∈ nbrsOf (buildGraph ws) x) p ∧
    List.Chain' OneAway p := by
  obtain ⟨h1, h2, h3⟩ := findShortestPath_sound hp
  exact ⟨h1, h2, h3, h3.imp (nbrs_buildGraph_oneAway ws (no_underscore_of_AZ hAZ))⟩

theorem claim3_witness :
    [['A', 'B'], ['A', 'C']].head? = some (upperW ['A', 'B']) ∧
    [['A', 'B'], ['A', 'C']].getLast? = some (upperW ['A', 'C']) ∧
    List.Chain' (fun x y => y ∈ nbrsOf (buildGraph W2) x) [['A', 'B'], ['A', 'C']] ∧
    List.Chain' OneAway [['A', 'B'], ['A', 'C']] :=
  claim3_path_valid W2 2 (by decide) (by decide) (by decide) ['A', 'B'] ['A', 'C']
    [['A', 'B'], ['A', 'C']] (by decide)

/-- C1 counterexample: with the builder's single-word length-2 artifact
`{AB}`, the resolve query with start = end = AB does not succeed: the
`POST` handler answers the no-path failure, because `findShortestPath`'s
single-element identity path is rejected by the `path.length < 2` check. -/
theorem claim1_counterexample :
    (apiResolve (storeOf 2 W1) ['A', 'B'] ['A', 'B']).1 ≠
      ApiResult.ok [['A', 'B']] 1 ∧
    (apiResolve (storeOf 2 W1) ['A', 'B'] ['A', 'B']).1 = ApiResult.noPath := by
  decide

/-- C1 amended: for a word of a built artifact, `findShortestPath` with
start = end = w does return the single-element path `[w]`, but the resolve
endpoint rejects that path — it requires at least two words and answers
the no-path failure instead of succeeding. -/
theorem claim1_amended (ws : List Word) (L : Nat)
    (store : Nat → Option DictionaryData)
    (hstore : store L = some (dictOf ws))
    (hlen : ∀ w' ∈ ws, w'.length = L) (hL2 : 2 ≤ L) (hL15 : L ≤ 15)
    (hAZ : ∀ w' ∈ ws, ∀ c ∈ w', c ∈ LETTERS)
    (w : Word) (hw : w ∈ ws) :
    findShortestPath (buildGraph ws) w w = some [w] ∧
    (apiResolve store w w).1 = ApiResult.noPath := by
  have hwAZ := hAZ w hw
  have hup : upperW w = w := upperW_id_of_AZ hwAZ
  have htr : trimW (upperW w) = w := by
    rw [hup]
    exact trimW_id_of_AZ hwAZ
  have hkey : ¬alookup (buildGraph ws) w = none := alookup_buildGraph_ne_none hw
  have hkey' : ¬alookup (buildGraph ws) (upperW w) = none := by
    rw [hup]
    exact hkey
  have hfsp : findShortestPath (buildGraph ws) w w = some [w] := by
    rw [findShortestPath_identity hkey', hup]
  refine ⟨hfsp, ?_⟩
  have hwlen : w.length = L := hlen w hw
  have hwne : ¬w = [] := by
    intro h
    rw [h] at hwlen
    simp at hwlen
    omega
  obtain ⟨v', hnd, hperm, hcover, hprov, hpkg⟩ := buildGroups_spec (buildGraph ws) ws
  have hgrp : areInSameGroup w w (buildGroups (buildGraph ws) ws) = true := by
    unfold areInSameGroup
    rw [List.any_eq_true]
    obtain ⟨pr, hpr, hwpr⟩ :=
      List.mem_flatMap.mp (hperm.mem_iff.mp (hcover w hw))
    refine ⟨pr, hpr, ?_⟩
    rw [hup]
    simp [hwpr]
  have hrange : ¬(L < 2 ∨ 15 < L) := by omega
  simp only [apiResolve, dictOf, htr, hwlen, hstore]
  simp [hwne, hrange, hkey, hgrp, hfsp, hwlen]

/-- C7: when both query words are listed in the built artifact but lie in
disjoint connectivity groups, the `POST` handler returns the not-connected
failure directly from the group pre-check, without invoking the BFS
shortest-path search. -/
theorem claim7_disconnected_precheck (ws : List Word) (L : Nat)
    (store : Nat → Option DictionaryData)
    (hstore : store L = some (dictOf ws))
    (hlen : ∀ w ∈ ws, w.length = L) (hL2 : 2 ≤ L) (hL15 : L ≤ 15)
    (hAZ : ∀ w ∈ ws, ∀ c ∈ w, c ∈ LETTERS)
    {startWord endWord : Word} (hs : startWord ∈ ws) (he : endWord ∈ ws)
    (hdisj : ∀ pr ∈ buildGroups (buildGraph ws) ws,
      ¬(startWord ∈ pr.2 ∧ endWord ∈ pr.2)) :
    apiResolve store startWord endWord = (ApiResult.notConnected, false) := by
  have hsAZ := hAZ startWord hs
  have heAZ := hAZ endWord he
  have hsup : upperW startWord = startWord := upperW_id_of_AZ hsAZ
  have heup : upperW endWord = endWord := upperW_id_of_AZ heAZ
  have hstr : trimW (upperW startWord) = startWord := by
    rw [hsup]
    exact trimW_id_of_AZ hsAZ
  have hetr : trimW (upperW endWord) = endWord := by
    rw [heup]
    exact trimW_id_of_AZ heAZ
  have hslen : startWord.length = L := hlen startWord hs
  have helen : endWord.length = L := hlen endWord he
  have hsne : ¬startWord = [] := by
    intro h
    rw [h] at hslen
    simp at hslen
    omega
  have hene : ¬endWord = [] := by
    intro h
    rw [h] at helen
    simp at helen
    omega
  have hskey : ¬alookup (buildGraph ws) startWord = none :=
    alookup_buildGraph_ne_none hs
  have hekey : ¬alookup (buildGraph ws) endWord = none :=
    alookup_buildGraph_ne_none he
  have hgrp : areInSameGroup startWord endWord (buildGroups (buildGraph ws) ws)
      = false := by
    unfold areInSameGroup
    rw [List.any_eq_false]
    intro pr hpr
    rw [hsup, heup]
    simp only [Bool.and_eq_true, decide_eq_true_eq, not_and]
    intro h1 h2
    exact hdisj pr hpr ⟨h1, h2⟩
  have hrange : ¬(L < 2 ∨ 15 < L) := by omega
  simp only [apiResolve, dictOf, hstr, hetr, hslen, helen, hstore]
  simp [hsne, hene, hrange, hskey, hekey, hgrp]

theorem claim7_witness :
    apiResolve (storeOf 2 W2) ['A', 'B'] ['X', 'Y'] =
      (ApiResult.notConnected, false) :=
  claim7_disconnected_precheck W2 2 (storeOf 2 W2) rfl (by decide) (by decide)
    (by decide) (by decide) (by decide) (by decide) (by decide)

theorem claim1_amended_witness :
    findShortestPath (buildGraph W1) ['A', 'B'] ['A', 'B'] = some [['A', 'B']] ∧
    (apiResolve (storeOf 2 W1) ['A', 'B'] ['A', 'B']).1 = ApiResult.noPath :=
  claim1_amended W1 2 (storeOf 2 W1) rfl (by decide) (by decide) (by decide)
    (by decide) ['A', 'B'] (by decide)

/-- C8 counterexample: a missing artifact file and an unreadable/corrupt
artifact file produce the *same* `null` outcome of `loadDictionary` — the
two conditions are not surfaced distinctly. -/
theorem claim8_counterexample :
    loadDictionary (fun _ => ⟨false, true, none⟩) [] 4 =
      loadDictionary (fun _ => ⟨true, false, none⟩) [] 4 ∧
    loadDictionary (fun _ => ⟨false, true, none⟩) [] 4 = (none, []) :=
  ⟨rfl, rfl⟩

/-- C8 amended: on a cache miss `loadDictionary` returns the same `null`
result whether the artifact file is absent, unreadable, or unparseable;
callers cannot distinguish "no artifact for this length" from an
infrastructure failure. -/
theorem claim8_amended (fs : Nat → FsFile) (cache : List (Nat × DictionaryData))
    (len : Nat) (hmiss : alookup cache len = none) :
    ((fs len).present = false → loadDictionary fs cache len = (none, cache)) ∧
    ((fs len).readOk = false → loadDictionary fs cache len = (none, cache)) ∧
    ((fs len).parsed = none → loadDictionary fs cache len = (none, cache)) := by
  rcases hfs : fs len with ⟨pres, rok, par⟩
  unfold loadDictionary
  rw [hmiss, hfs]
  cases pres <;> cases rok <;> cases par <;> simp

theorem claim8_amended_witness :
    loadDictionary (fun _ => ⟨false, true, none⟩) [] 4 = (none, []) :=
  (claim8_amended (fun _ => ⟨false, true, none⟩) [] 4 rfl).1 rfl

/-- C9: `loadDictionary` populates the per-length cache only on a
successful read and parse; every failure returns `null` with the cache
unchanged, so a subsequent call for the same length re-attempts the read
instead of serving a cached failure. -/
theorem claim9_cache_only_on_success (fs : Nat → FsFile)
    (cache : List (Nat × DictionaryData)) (len : Nat) :
    ((loadDictionary fs cache len).1 = none →
      (loadDictionary fs cache len).2 = cache) ∧
    (∀ d, alookup cache len = none → (loadDictionary fs cache len).1 = some d →
      (loadDictionary fs cache len).2 = (len, d) :: cache ∧
      (fs len).present = true ∧ (fs len).readOk = true ∧
      (fs len).parsed = some d) ∧
    (∀ (fs' : Nat → FsFile) (d : DictionaryData),
      alookup cache len = none → (loadDictionary fs cache len).1 = none →
      (fs' len).present = true → (fs' len).readOk = true →
      (fs' len).parsed = some d →
      (loadDictionary fs' (loadDictionary fs cache len).2 len).1 = some d) := by
  rcases hc : alookup cache len with _ | d0
  · rcases hfs : fs len with ⟨pres, rok, par⟩
    have hunfold : ∀ (d : DictionaryData), True := fun _ => trivial
    refine ⟨?_, ?_, ?_⟩
    · intro h1
      unfold loadDictionary at h1 ⊢
      rw [hc, hfs] at h1 ⊢
      cases pres <;> cases rok <;> cases par <;> simp_all
    · intro d _ h2
      unfold loadDictionary at h2 ⊢
      rw [hc, hfs] at h2 ⊢
      cases pres <;> cases rok <;> cases par <;> simp_all
    · intro fs' d _ h2 hp' hr' hpar'
      have hcache : (loadDictionary fs cache len).2 = cache := by
        unfold loadDictionary at h2 ⊢
        rw [hc, hfs] at h2 ⊢
        cases pres <;> cases rok <;> cases par <;> simp_all
      rw [hcache]
      unfold loadDictionary
      rw [hc, hp', hr', hpar']
      simp
  · refine ⟨?_, ?_, ?_⟩
    · intro h1
      unfold loadDictionary at h1 ⊢
      rw [hc] at h1 ⊢
    · intro d hnone
      exact absurd hnone (by simp)
    · intro fs' d hnone
      exact absurd hnone (by simp)

theorem claim9_witness :
    (loadDictionary (fun _ => ⟨true, false, none⟩) [] 4).1 = none →
      (loadDictionary (fun _ => ⟨true, false, none⟩) [] 4).2 = [] := by
  have h := (claim9_cache_only_on_success (fun _ => ⟨true, false, none⟩) [] 4).1
  exact h

/-! ## `differByOne` and case-insensitive Hamming distance -/

theorem letters_toUpper : ∀ c ∈ LETTERS, c.toUpper = c := by decide

theorem hammingU_cons (x y : Char) (xs ys : Word) :
    hammingU (x :: xs) (y :: ys) =
      hammingU xs ys + (if x.toUpper = y.toUpper then 0 else 1) := by
  by_cases h : x.toUpper = y.toUpper
  · simp [hammingU, List.countP_cons, h]
  · simp [hammingU, List.countP_cons, h]

theorem hammingU_nil_left (b : Word) : hammingU [] b = 0 := by
  simp [hammingU]

theorem diffLoop_iff : ∀ (a b : Word) (c : Nat), a.length = b.length →
    (diffLoop a b c = true ↔ hammingU a b + c = 1) := by
  intro a
  induction a with
  | nil =>
    intro b c hl
    cases b with
    | nil =>
      have h0 : diffLoop [] [] c = (c == 1) := rfl
      rw [h0, hammingU_nil_left]
      constructor
      · intro h
        have hc : c = 1 := by simpa using h
        omega
      · intro h
        have hc : c = 1 := by omega
        rw [hc]
        rfl
    | cons y ys => simp at hl
  | cons x xs ih =>
    intro b c hl
    cases b with
    | nil => simp at hl
    | cons y ys =>
      simp only [List.length_cons, Nat.succ.injEq] at hl
      rw [hammingU_cons]
      by_cases hxy : x.toUpper = y.toUpper
      · have hne : ¬x.toUpper ≠ y.toUpper := by simpa using hxy
        rw [diffLoop, if_neg hne, if_pos hxy, ih ys c hl]
        constructor
        · intro h
          omega
        · intro h
          omega
      · have hne : x.toUpper ≠ y.toUpper := hxy
        rw [diffLoop, if_pos hne, if_neg hxy]
        by_cases hc : c + 1 > 1
        · rw [if_pos hc]
          constructor
          · intro h
            simp at h
          · intro h
            exact absurd h (by omega)
        · rw [if_neg hc]
          rw [ih ys (c + 1) hl]
          constructor
          · intro h
            omega
          · intro h
            omega

theorem differByOne_iff (a b : Word) :
    differByOne a b = true ↔ a.length = b.length ∧ hammingU a b = 1 := by
  unfold differByOne
  by_cases hl : a.length = b.length
  · have hne : ¬a.length ≠ b.length := by simpa using hl
    rw [if_neg hne, diffLoop_iff a b 0 hl]
    constructor
    · intro h
      exact ⟨hl, by omega⟩
    · rintro ⟨_, h⟩
      omega
  · rw [if_pos hl]
    constructor
    · intro h
      exact absurd h (by simp)
    · rintro ⟨h, _⟩
      exact absurd h hl

theorem hammingU_eq_diffCountRaw : ∀ (a b : Word),
    (∀ c ∈ a, c.toUpper = c) → (∀ c ∈ b, c.toUpper = c) →
    hammingU a b = diffCountRaw a b := by
  intro a
  induction a with
  | nil =>
    intro b _ _
    simp [hammingU, diffCountRaw]
  | cons x xs ih =>
    intro b ha hb
    cases b with
    | nil => simp [hammingU, diffCountRaw]
    | cons y ys =>
      rw [hammingU_cons, diffCountRaw_cons,
        ih ys (fun c hc => ha c (List.mem_cons_of_mem _ hc))
          (fun c hc => hb c (List.mem_cons_of_mem _ hc)),
        ha x (List.mem_cons_self _ _), hb y (List.mem_cons_self _ _)]

/-! ## `generateNeighbors` membership -/

theorem mem_generateNeighbors (u v : Word) :
    v ∈ generateNeighbors u ↔
      ∃ i < u.length, ∃ letter ∈ LETTERS,
        v = u.take i ++ letter :: u.drop (i + 1) ∧ upperW v ≠ upperW u := by
  unfold generateNeighbors
  simp only [List.mem_flatMap, List.mem_range, List.mem_filter, List.mem_map,
    decide_eq_true_eq]
  constructor
  · rintro ⟨i, hi, ⟨⟨letter, hletter, rfl⟩, hne⟩⟩
    exact ⟨i, hi, letter, hletter, rfl, hne⟩
  · rintro ⟨i, hi, letter, hletter, rfl, hne⟩
    exact ⟨i, hi, ⟨⟨letter, hletter, rfl⟩, hne⟩⟩

theorem generateNeighbors_length {u v : Word} (h : v ∈ generateNeighbors u) :
    v.length = u.length := by
  rw [mem_generateNeighbors] at h
  obtain ⟨i, hi, letter, _, rfl, _⟩ := h
  simp [List.length_take, List.length_drop]
  omega

theorem generateNeighbors_AZ {u v : Word} (hu : ∀ c ∈ u, c ∈ LETTERS)
    (h : v ∈ generateNeighbors u) : ∀ c ∈ v, c ∈ LETTERS := by
  rw [mem_generateNeighbors] at h
  obtain ⟨i, hi, letter, hletter, rfl, _⟩ := h
  intro c hc
  rcases List.mem_append.mp hc with h' | h'
  · exact hu c (List.mem_of_mem_take h')
  · rcases List.mem_cons.mp h' with rfl | h''
    · exact hletter
    · exact hu c (List.mem_of_mem_drop h'')

theorem gen_cons {u v : Word} (c : Char) (h : v ∈ generateNeighbors u) :
    (c :: v) ∈ generateNeighbors (c :: u) := by
  rw [mem_generateNeighbors] at h ⊢
  obtain ⟨i, hi, letter, hletter, rfl, hne⟩ := h
  refine ⟨i + 1, by simpa using hi, letter, hletter, ?_, ?_⟩
  · simp [List.take_succ_cons, List.drop_succ_cons]
  · intro hcon
    apply hne
    unfold upperW at hcon ⊢
    simpa using List.cons.inj hcon |>.2

theorem hammingU_self (l : Word) : hammingU l l = 0 := by
  induction l with
  | nil => rfl
  | cons x xs ih => rw [hammingU_cons, ih, if_pos rfl]

theorem diffCountRaw_triangle : ∀ (a b c : Word), a.length = b.length →
    b.length = c.length → diffCountRaw a c ≤ diffCountRaw a b + diffCountRaw b c := by
  intro a
  induction a with
  | nil =>
    intro b c hab hbc
    simp [diffCountRaw]
  | cons x xs ih =>
    intro b c hab hbc
    cases b with
    | nil => simp at hab
    | cons y ys =>
      cases c with
      | nil => simp at hbc
      | cons z zs =>
        simp only [List.length_cons, Nat.succ.injEq] at hab hbc
        rw [diffCountRaw_cons, diffCountRaw_cons, diffCountRaw_cons]
        have hIH := ih ys zs hab hbc
        by_cases h2 : x = y
        · by_cases h3 : y = z
          · rw [if_pos h2, if_pos h3, if_pos (h2.trans h3)]
            omega
          · rw [if_pos h2, if_neg h3, if_neg (fun h => h3 (h2.symm.trans h))]
            omega
        · by_cases h3 : y = z
          · rw [if_pos h3, if_neg h2, if_neg (fun h => h2 (h.trans h3.symm))]
            omega
          · rw [if_neg h2, if_neg h3]
            split_ifs <;> omega

theorem chain_diffCount_lower (L : Nat) : ∀ (p : List Word) (a b : Word),
    p.head? = some a → p.getLast? = some b → (∀ x ∈ p, x.length = L) →
    List.Chain' (fun x y => diffCountRaw x y ≤ 1) p →
    diffCountRaw a b ≤ p.length - 1 := by
  intro p
  induction p with
  | nil =>
    intro a b hh
    simp at hh
  | cons x t ih =>
    intro a b hh hl hlen hc
    have hax : a = x := by
      simp only [List.head?_cons, Option.some.injEq] at hh
      exact hh.symm
    subst hax
    cases t with
    | nil =>
      have hab : a = b := by
        simp only [List.getLast?_singleton, Option.some.injEq] at hl
        exact hl
      rw [← hab, diffCountRaw_self]
      simp
    | cons y t' =>
      rw [List.chain'_cons] at hc
      have hl' : (y :: t').getLast? = some b := by
        rw [← hl]
        exact List.getLast?_cons_cons.symm
      have hIH := ih y b rfl hl'
        (fun x' hx' => hlen x' (List.mem_cons_of_mem _ hx')) hc.2
      have hb : b ∈ y :: t' := mem_of_getLast?_eq hl'
      have htri := diffCountRaw_triangle a y b
        (by rw [hlen a (List.mem_cons_self _ _),
          hlen y (List.mem_cons_of_mem _ (List.mem_cons_self _ _))])
        (by rw [hlen y (List.mem_cons_of_mem _ (List.mem_cons_self _ _)),
          hlen b (List.mem_cons_of_mem _ hb)])
      simp only [List.length_cons] at hIH ⊢
      omega

theorem mem_allStringsOver (alpha : List Char) :
    ∀ (n : Nat) (w : Word), w.length = n → (∀ c ∈ w, c ∈ alpha) →
      w ∈ allStringsOver alpha n := by
  intro n
  induction n with
  | zero =>
    intro w hw _
    rw [List.length_eq_zero] at hw
    subst hw
    simp [allStringsOver]
  | succ n ih =>
    intro w hw hAZ
    cases w with
    | nil => simp at hw
    | cons c t =>
      simp only [List.length_cons, Nat.succ.injEq] at hw
      unfold allStringsOver
      rw [List.mem_flatMap]
      refine ⟨c, hAZ c (List.mem_cons_self _ _), ?_⟩
      rw [List.mem_map]
      exact ⟨t, ih t hw (fun c' hc' => hAZ c' (List.mem_cons_of_mem _ hc')), rfl⟩

theorem toUpper_ne_of_letters {x y : Char} (hx : x ∈ LETTERS) (hy : y ∈ LETTERS)
    (hne : x ≠ y) : x.toUpper ≠ y.toUpper := by
  rw [letters_toUpper x hx, letters_toUpper y hy]
  exact hne

/-- Single-substitution step, cons-compatible on the tail. -/
theorem step_cons {u v : Word} (c : Char)
    (h : v ∈ generateNeighbors u ∧ differByOne u v = true) :
    (c :: v) ∈ generateNeighbors (c :: u) ∧ differByOne (c :: u) (c :: v) = true := by
  refine ⟨gen_cons c h.1, ?_⟩
  rw [differByOne_iff] at h ⊢
  obtain ⟨_, hlen, hham⟩ := h
  refine ⟨by simpa using hlen, ?_⟩
  rw [hammingU_cons, hham, if_pos rfl]

/-- Between two same-length A–Z words there is an explicit substitution
ladder of exactly `diffCountRaw + 1` words. -/
theorem exists_subst_path : ∀ (a b : Word), a.length = b.length →
    (∀ c ∈ a, c ∈ LETTERS) → (∀ c ∈ b, c ∈ LETTERS) →
    ∃ q : List Word, q.head? = some a ∧ q.getLast? = some b ∧
      q.length = diffCountRaw a b + 1 ∧
      List.Chain' (fun x y => y ∈ generateNeighbors x ∧ differByOne x y = true) q ∧
      (∀ x ∈ q, x.length = a.length ∧ ∀ c ∈ x, c ∈ LETTERS) := by
  intro a
  induction a with
  | nil =>
    intro b hlen _ _
    rw [List.length_nil] at hlen
    have hb : b = [] := List.length_eq_zero.mp hlen.symm
    subst hb
    exact ⟨[[]], rfl, rfl, rfl, List.chain'_singleton _, by simp⟩
  | cons x xs ih =>
    intro b hlen haAZ hbAZ
    cases b with
    | nil => simp at hlen
    | cons y ys =>
      simp only [List.length_cons, Nat.succ.injEq] at hlen
      obtain ⟨q', hh, hl, hlen', hchain, helts⟩ := ih ys hlen
        (fun c hc => haAZ c (List.mem_cons_of_mem _ hc))
        (fun c hc => hbAZ c (List.mem_cons_of_mem _ hc))
      have hmapfacts : ∀ (c : Char), c ∈ LETTERS →
          (q'.map (c :: ·)).head? = some (c :: xs) ∧
          (q'.map (c :: ·)).getLast? = some (c :: ys) ∧
          (q'.map (c :: ·)).length = diffCountRaw xs ys + 1 ∧
          List.Chain' (fun u v => v ∈ generateNeighbors u ∧ differByOne u v = true)
            (q'.map (c :: ·)) ∧
          (∀ w ∈ q'.map (c :: ·), w.length = xs.length + 1 ∧
            ∀ ch ∈ w, ch ∈ LETTERS) := by
        intro c hc
        refine ⟨?_, ?_, ?_, ?_, ?_⟩
        · rw [List.head?_map, hh]
          rfl
        · rw [List.getLast?_map, hl]
          rfl
        · rw [List.length_map, hlen']
        · rw [List.chain'_map]
          exact hchain.imp (fun u v h => step_cons c h)
        · intro w hw
          rw [List.mem_map] at hw
          obtain ⟨u, hu, rfl⟩ := hw
          obtain ⟨hul, huAZ⟩ := helts u hu
          refine ⟨by simp [hul], ?_⟩
          intro ch hch
          rcases List.mem_cons.mp hch with rfl | hch'
          · exact hc
          · exact huAZ ch hch'
      by_cases hxy : x = y
      · subst hxy
        obtain ⟨m1, m2, m3, m4, m5⟩ := hmapfacts x (haAZ x (List.mem_cons_self _ _))
        refine ⟨q'.map (x :: ·), m1, m2, ?_, m4, ?_⟩
        · rw [m3, diffCountRaw_cons, if_pos rfl]
        · intro w hw
          obtain ⟨h1, h2⟩ := m5 w hw
          exact ⟨by simpa using h1, h2⟩
      · have hyL : y ∈ LETTERS := hbAZ y (List.mem_cons_self _ _)
        have hxL : x ∈ LETTERS := haAZ x (List.mem_cons_self _ _)
        obtain ⟨m1, m2, m3, m4, m5⟩ := hmapfacts y hyL
        have hstep : (y :: xs) ∈ generateNeighbors (x :: xs) ∧
            differByOne (x :: xs) (y :: xs) = true := by
          constructor
          · rw [mem_generateNeighbors]
            refine ⟨0, by simp, y, hyL, by simp, ?_⟩
            intro hcon
            unfold upperW at hcon
            simp only [List.map_cons, List.cons.injEq] at hcon
            exact toUpper_ne_of_letters hyL hxL (Ne.symm hxy) hcon.1
          · rw [differByOne_iff]
            refine ⟨by simp, ?_⟩
            rw [hammingU_cons, hammingU_self,
              if_neg (toUpper_ne_of_letters hxL hyL hxy)]
        cases hq' : q'.map (y :: ·) with
        | nil =>
          rw [hq'] at m1
          simp at m1
        | cons w0 t0 =>
          have hw0 : w0 = y :: xs := by
            rw [hq'] at m1
            simp only [List.head?_cons, Option.some.injEq] at m1
            exact m1
          refine ⟨(x :: xs) :: q'.map (y :: ·), rfl, ?_, ?_, ?_, ?_⟩
          · rw [hq', List.getLast?_cons_cons, ← hq', m2]
          · rw [List.length_cons, m3, diffCountRaw_cons,
              if_neg hxy]
          · rw [hq', List.chain'_cons, hw0]
            refine ⟨hstep, ?_⟩
            rw [hq', hw0] at m4
            exact m4
          · intro w hw
            rcases List.mem_cons.mp hw with rfl | hw'
            · exact ⟨rfl, haAZ⟩
            · obtain ⟨h1, h2⟩ := m5 w hw'
              exact ⟨by simpa using h1, h2⟩

theorem diffCountRaw_subst : ∀ (a : Word) (i : Nat) (letter : Char),
    diffCountRaw a (a.take i ++ letter :: a.drop (i + 1)) ≤ 1 := by
  intro a
  induction a with
  | nil =>
    intro i letter
    simp [diffCountRaw]
  | cons x xs ih =>
    intro i letter
    cases i with
    | zero =>
      simp only [List.take_zero, List.nil_append, List.drop_succ_cons, List.drop_zero]
      rw [diffCountRaw_cons, diffCountRaw_self]
      split_ifs <;> omega
    | succ i =>
      simp only [List.take_succ_cons, List.drop_succ_cons, List.cons_append]
      rw [diffCountRaw_cons, if_pos rfl]
      simpa using ih i letter

/-- C10: for every pair of equal-length words over the uppercase alphabet
whose case-insensitive Hamming distance `d` satisfies `d + 1 ≤ maxSteps`,
`generateWordLadder` (which consults no dictionary — its definition reads
no word list) returns a ladder of exactly `d + 1` words, and that ladder
does not exceed `maxSteps` words. -/
theorem claim10_ladder_length (startWord endWord : Word) (maxSteps : Nat)
    (hlen : startWord.length = endWord.length)
    (hsAZ : ∀ c ∈ startWord, c ∈ LETTERS)
    (heAZ : ∀ c ∈ endWord, c ∈ LETTERS)
    (hms : hammingU startWord endWord + 1 ≤ maxSteps) :
    ∃ p, generateWordLadder startWord endWord maxSteps = some p ∧
      p.length = hammingU startWord endWord + 1 ∧ p.length ≤ maxSteps := by
  have hClosure : ∀ a b, (a.length = startWord.length ∧ ∀ c ∈ a, c ∈ LETTERS) →
      b ∈ generateNeighbors a → (fun w n => differByOne w n) a b = true →
      (b.length = startWord.length ∧ ∀ c ∈ b, c ∈ LETTERS) := by
    intro a b hga hmem _
    exact ⟨(generateNeighbors_length hmem).trans hga.1, generateNeighbors_AZ hga.2 hmem⟩
  have hKeyId : ∀ a, (a.length = startWord.length ∧ ∀ c ∈ a, c ∈ LETTERS) →
      upperW a = a := fun a hga => upperW_id_of_AZ hga.2
  have hS : ∀ a b, (a.length = startWord.length ∧ ∀ c ∈ a, c ∈ LETTERS) →
      b ∈ generateNeighbors a → (fun w n => differByOne w n) a b = true →
      upperW b ∈ allStringsOver (LETTERS ++ startWord) startWord.length := by
    intro a b hga hmem hguard
    have hgb := hClosure a b hga hmem hguard
    rw [upperW_id_of_AZ hgb.2]
    exact mem_allStringsOver (LETTERS ++ startWord) startWord.length b hgb.1
      (fun c hc => List.mem_append.mpr (Or.inl (hgb.2 c hc)))
  have hinv := bfsInv_init (fun w => decide (upperW w = upperW endWord))
    (fun len => decide (len < maxSteps)) generateNeighbors upperW
    (fun w n => differByOne w n)
    (fun w => w.length = startWord.length ∧ ∀ c ∈ w, c ∈ LETTERS)
    startWord ⟨rfl, hsAZ⟩ hKeyId
  have hfuel : ([(startWord, [startWord])] : List (Word × List Word)).length +
      ((allStringsOver (LETTERS ++ startWord) startWord.length).filter
        (fun y => decide (y ∉ [upperW startWord]))).length + 1 ≤
      (allStringsOver (LETTERS ++ startWord) startWord.length).length + 2 := by
    have hle := List.length_filter_le
      (fun y => decide (y ∉ [upperW startWord]))
      (allStringsOver (LETTERS ++ startWord) startWord.length)
    simp only [List.length_cons, List.length_nil]
    omega
  obtain ⟨hne, hsome, hnone⟩ := bfsLoop_master
    (fun w => decide (upperW w = upperW endWord))
    (fun len => decide (len < maxSteps)) generateNeighbors upperW
    (fun w n => differByOne w n)
    (fun w => w.length = startWord.length ∧ ∀ c ∈ w, c ∈ LETTERS)
    (allStringsOver (LETTERS ++ startWord) startWord.length) startWord
    hClosure hKeyId hS
    ((allStringsOver (LETTERS ++ startWord) startWord.length).length + 2)
    [upperW startWord] [(startWord, [startWord])] hinv hfuel
  obtain ⟨q, hqh, hql, hqlen, hqchain, hqelts⟩ :=
    exists_subst_path startWord endWord hlen hsAZ heAZ
  have hd : diffCountRaw startWord endWord = hammingU startWord endWord :=
    (hammingU_eq_diffCountRaw startWord endWord
      (fun c hc => letters_toUpper c (hsAZ c hc))
      (fun c hc => letters_toUpper c (heAZ c hc))).symm
  have hqvalid : ValidRun (fun w => decide (upperW w = upperW endWord))
      (fun len => decide (len < maxSteps)) generateNeighbors
      (fun w n => differByOne w n)
      (fun w => w.length = startWord.length ∧ ∀ c ∈ w, c ∈ LETTERS) startWord q := by
    refine ⟨hqh, ⟨endWord, hql, by simp⟩, ?_, ?_, ?_⟩
    · exact hqchain.imp (fun a b h => h)
    · exact hqelts
    · intro m hm
      rw [hqlen, hd] at hm
      simp only [decide_eq_true_eq]
      omega
  cases hres : bfsLoop (fun w => decide (upperW w = upperW endWord))
      (fun len => decide (len < maxSteps)) generateNeighbors upperW
      (fun w n => differByOne w n)
      ((allStringsOver (LETTERS ++ startWord) startWord.length).length + 2)
      [upperW startWord] [(startWord, [startWord])] with
  | none => exact absurd hres hne
  | some r =>
    cases r with
    | none => exact absurd hqvalid (hnone hres q)
    | some p =>
      obtain ⟨⟨hph, ⟨z, hpz, hpt⟩, hpchain, hpgood⟩, hpmin⟩ := hsome p hres
      have hzmem : z ∈ p := mem_of_getLast?_eq hpz
      have hzgood := hpgood z hzmem
      have hz : upperW z = upperW endWord := of_decide_eq_true hpt
      have hzend : z = endWord := by
        rw [upperW_id_of_AZ hzgood.2, upperW_id_of_AZ heAZ] at hz
        exact hz
      rw [hzend] at hpz
      have hchainD : List.Chain' (fun x y => diffCountRaw x y ≤ 1) p := by
        refine hpchain.imp ?_
        intro a b hab
        obtain ⟨i, hi, letter, _, rfl, _⟩ := (mem_generateNeighbors a _).mp hab.1
        exact diffCountRaw_subst a i letter
      have hlens : ∀ x ∈ p, x.length = startWord.length := fun x hx => (hpgood x hx).1
      have hlow := chain_diffCount_lower startWord.length p startWord endWord
        hph hpz hlens hchainD
      have hp1 : 1 ≤ p.length := by
        cases p with
        | nil => simp at hph
        | cons _ _ => simp
      have hup := hpmin q hqvalid
      refine ⟨p, ?_, by omega, by omega⟩
      unfold generateWordLadder
      rw [if_neg (fun hcon => hcon hlen), hres]

theorem claim10_witness :
    (['A', 'B'] : Word).length = (['A', 'C'] : Word).length ∧
    (∀ c ∈ (['A', 'B'] : Word), c ∈ LETTERS) ∧
    (∀ c ∈ (['A', 'C'] : Word), c ∈ LETTERS) ∧
    hammingU ['A', 'B'] ['A', 'C'] + 1 ≤ 2 ∧
    ∃ p, generateWordLadder ['A', 'B'] ['A', 'C'] 2 = some p ∧
      p.length = hammingU ['A', 'B'] ['A', 'C'] + 1 ∧ p.length ≤ 2 :=
  ⟨by decide, by decide, by decide, by decide,
    claim10_ladder_length ['A', 'B'] ['A', 'C'] 2 (by decide) (by decide)
      (by decide) (by decide)⟩
